import Mathlib

/-!
A verification development for the core of toy-boltdb, an embedded
single-file ordered key/value storage engine written in Go.

Modelling conventions, used throughout:
* Go byte slices (`[]byte`, and `string`, which Go treats as raw bytes)
  are `List Nat`;
* Go `uint64` page ids and transaction ids are `Nat` (the counters are
  never driven anywhere near overflow by the code);
* Go maps are association lists, together with an explicit iteration
  order where the code ranges over a map (Go map iteration order is
  unspecified);
* code that can `panic` is modelled with `Option`, `none` being the
  panic.
-/

namespace ToyBolt

/-- Go `bytes.Compare` on byte slices: lexicographic order on bytes, a
proper prefix is smaller. -/
def bytesCompare : List Nat → List Nat → Ordering
  | [], [] => .eq
  | [], _ :: _ => .lt
  | _ :: _, [] => .gt
  | a :: as, b :: bs =>
    if a < b then .lt else if b < a then .gt else bytesCompare as bs

@[simp] theorem bytesCompare_self (a : List Nat) : bytesCompare a a = .eq := by
  induction a with
  | nil => rfl
  | cons x xs ih => simp [bytesCompare, ih]

/-- Strict lexicographic byte order, `a < b` in Go's `bytes.Compare`
sense. -/
def bytesLt (a b : List Nat) : Prop := bytesCompare a b = .lt

instance : DecidableEq Ordering := fun a b => by
  cases a <;> cases b <;> first
    | exact isTrue rfl
    | exact isFalse (by simp)

instance (a b : List Nat) : Decidable (bytesLt a b) := by
  unfold bytesLt; infer_instance

/-- The loop of Go `sort.Search(n, f)`, exactly as in the standard
library: binary search keeping the invariant that everything below `i`
fails `f` and everything at or above `j` satisfies it
(`h := (i+j)/2; if !f(h) { i = h+1 } else { j = h }`). -/
def sortSearchLoop (f : Nat → Bool) (i j : Nat) : Nat :=
  if _h : i < j then
    let m := (i + j) / 2
    if f m then sortSearchLoop f i m else sortSearchLoop f (m + 1) j
  else i
termination_by j - i
decreasing_by
  · omega
  · omega

/-- Go `sort.Search(n, f)`. -/
def sortSearch (n : Nat) (f : Nat → Bool) : Nat := sortSearchLoop f 0 n

/-! ## Freelist (src/unnamed/part_006, src/freelist.go)

The freelist keeps `pageIDs`, the list of free page ids, sorted
descending by convention, plus a pending map from transaction ids to
page ids freed by that transaction. -/
/-- `contigStep l i` holds when the scan step from index `i` to `i+1`
stays inside the same descending-contiguous block, i.e.
`l[i] = l[i+1] + 1`. -/
def contigStep (l : List Nat) (i : Nat) : Bool :=
  match l[i]?, l[i + 1]? with
  | some a, some b => a == b + 1
  | _, _ => false

/-- Length of the descending-contiguous block of `l` that ends at index
`i` (this is the value the `count` variable of `freelist.allocate` has
after its reset step at index `i`). -/
def runLen (l : List Nat) : Nat → Nat
  | 0 => 1
  | i + 1 => if contigStep l i then runLen l i + 1 else 1

/-- An ascending contiguous run of `n` page ids, sitting at positions
`j .. j+n-1` of the descending list `l` (so the lowest id of the run is
`l[j+n-1]`, and positionally adjacent entries step down by one). -/
def IsRunAt (l : List Nat) (j n : Nat) : Prop :=
  0 < n ∧ j + n ≤ l.length ∧ ∀ k < n - 1, contigStep l (j + k) = true

instance (l : List Nat) (j n : Nat) : Decidable (IsRunAt l j n) := by
  unfold IsRunAt; infer_instance

/-- The loop of `freelist.allocate(n)` from src/unnamed/part_006,
scanning `pageIDs` with index `i`, the previous id `previd` and the
running block length `count`.  When a block of length `n` is found it
is removed (`append(pageIDs[:i-(n-1)], pageIDs[i+1:]...)`) and its
lowest id `pageIDs[i]` returned; ids `<= 1` trigger a Go panic,
modelled as `none`.  (`previd - id != 1` on `uint64` is `previd ≠ id+1`
here; the two agree whenever `previd ≠ 0`, and `previd = 0` is caught
by the first disjunct.) -/
def allocateLoop (n : Nat) (l : List Nat) (i previd count : Nat) :
    Option (Nat × List Nat) :=
  if h : i < l.length then
    let id := l[i]
    let count1 := if previd = 0 ∨ previd ≠ id + 1 then 1 else count
    if count1 = n then
      if id ≤ 1 then none
      else some (id, l.take (i - (n - 1)) ++ l.drop (i + 1))
    else allocateLoop n l (i + 1) id (count1 + 1)
  else some (0, l)
termination_by l.length - i

/-- `freelist.allocate(n)` acting on the `pageIDs` list. -/
def allocate (n : Nat) (l : List Nat) : Option (Nat × List Nat) :=
  allocateLoop n l 0 0 0

/-- Loop invariant carried through `allocateLoop`. -/
def AllocInv (l : List Nat) (i previd count : Nat) : Prop :=
  (i = 0 ∧ previd = 0) ∨
    (0 < i ∧ l[i - 1]? = some previd ∧ count = runLen l (i - 1) + 1)

/-- The first ascending contiguous run met by the scan of the
descending list: the run at the lowest starting position. -/
def FirstRunStart (l : List Nat) (n j : Nat) : Prop :=
  IsRunAt l j n ∧ ∀ j', IsRunAt l j' n → j ≤ j'

/-- The freelist state: `pageIDs` (the `available` list, sorted
descending by convention) and the pending map from transaction id to
the page ids that transaction freed (a Go map, modelled as an
association list). -/
structure Freelist where
  pageIDs : List Nat
  pendingPageIDMap : List (Nat × List Nat)

/-- `freelist.release` (src/freelist.go:17–19, src/unnamed/part_006:47–50).
Its doc comment promises to move all page ids for a transaction id (or
older) to the freelist, but the body is an empty TODO stub: the method
mutates nothing, so it is the identity on the freelist state. -/
def release (_txid : Nat) (f : Freelist) : Freelist :=
  f

/-! ## Commit pipeline error plumbing (src/rwtx.go)

`Commit` runs: rebalance, spill, allocate + write the buckets page,
write the dirty pages, write the meta page.  The outcomes of the
fallible steps are supplied as an environment (`none` = the Go call
returned a nil error, `some e` = it returned error `e`). -/
structure CommitEnv where
  spillErr : Option Nat
  bucketsAllocErr : Option Nat
  writeErr : Option Nat
  metaWriteErr : Option Nat
deriving DecidableEq

/-- `RWTransaction.writeMeta` (src/rwtx.go lines 338–348): it
serializes the meta into a buffer page and calls
`t.db.metafile.WriteAt(buf, ...)` as a bare statement — the error that
`WriteAt` returns (`env.metaWriteErr`) is discarded — then returns
`nil` unconditionally. -/
def writeMeta (_env : CommitEnv) : Option Nat := none

/-- `RWTransaction.Commit` (src/rwtx.go lines 44–74) error plumbing:
`t.spill()` is called as a bare statement (line 51), so its error is
discarded; the buckets-page allocation error and the dirty-page write
error are propagated; the final step is `writeMeta`. -/
def commit (env : CommitEnv) : Option Nat :=
  match env.bucketsAllocErr with
  | some e => some e
  | none =>
    match env.writeErr with
    | some e => some e
    | none => writeMeta env

/-- Whether the new meta page actually became durable on disk during
`Commit`: the meta write is attempted only after a successful
allocation and dirty-page write, and lands only if `WriteAt` on the
sync handle succeeded. -/
def metaDurable (env : CommitEnv) : Bool :=
  env.bucketsAllocErr.isNone && env.writeErr.isNone &&
    env.metaWriteErr.isNone

/-! ## Transaction.Buckets (src/tx.go lines 59–66) -/
/-- The on-file bucket record: root page id and sequence. -/
structure GoBucket where
  rootPageID : Nat
  sequence : Nat
deriving DecidableEq

/-- A `*Bucket` handle as returned by `Transaction.Buckets`: the name
and the underlying record (the transaction pointer is irrelevant
here). -/
structure BucketRef where
  name : List Nat
  bucket : GoBucket
deriving DecidableEq

/-- `Transaction.Buckets` ranges over the Go map
`t.buckets.bucketMap` with `for name, b := range ...` and appends a
`*Bucket` per entry.  Go map iteration order is unspecified, so the
iteration order is an explicit argument: any permutation of the
catalog's entries may occur. -/
def bucketsGo (iter : List (List Nat × GoBucket)) : List BucketRef :=
  iter.map (fun p => { name := p.1, bucket := p.2 })

/-! ## Node children and `node.put` (src/unnamed/part_007 lines 210–226)

A node's `children` is a sorted array of inodes `{pageID, key, value}`.
-/
structure Inode where
  pageID : Nat
  key : List Nat
  value : List Nat
deriving DecidableEq

/-- The closure Go passes to `sort.Search` in `node.put` and
`node.del`: `bytes.Compare(n.children[i].key, oldKey) != -1`.  Indexes
the search never probes (`i ≥ len`) read the zero inode here; Go would
panic there, but `sort.Search(len, ·)` only evaluates indexes below
`len`. -/
def putSearchPred (children : List Inode) (oldKey : List Nat)
    (i : Nat) : Bool :=
  bytesCompare (children.getD i ⟨0, [], []⟩).key oldKey != Ordering.lt

/-- `node.put(oldKey, newKey, value, pageID)`: binary-search the
children by `oldKey`; if `oldKey` is present at the found index,
overwrite that child in place, otherwise grow the array by one, shift,
and write the new child at the found index (equivalently: insert
there).  The child written is `{pageID, newKey, value}`. -/
def nodePut (children : List Inode) (oldKey newKey value : List Nat)
    (pageID : Nat) : List Inode :=
  let index := sortSearch children.length (putSearchPred children oldKey)
  let exact := decide (0 < children.length) && decide (index < children.length) &&
    ((children.getD index ⟨0, [], []⟩).key == oldKey)
  if exact then
    children.set index ⟨pageID, newKey, value⟩
  else
    children.take index ++ ⟨pageID, newKey, value⟩ :: children.drop index

/-! ## Node split (src/unnamed/part_007 lines 420–453)

Page constants from src/unnamed/part_010: the page header is 16 bytes
(the offset of `ptr` in the page struct), both element headers are 16
bytes, and `minKeysPerPage = 2`. -/
def pageHeaderSize : Nat := 16

def leafPageElementSize : Nat := 16

def branchPageElementSize : Nat := 16

def minKeysPerPage : Nat := 2

/-- The in-memory node: the `transaction` and `parent` pointers are
identity tokens (`parent = none` is Go's nil). -/
structure Node where
  transaction : Nat
  isLeaf : Bool
  unbalanced : Bool
  key : List Nat
  depth : Nat
  pageID : Nat
  parent : Option Nat
  children : List Inode
deriving DecidableEq

/-- `node.pageElementSize()`. -/
def pageElementSize (n : Node) : Nat :=
  if n.isLeaf then leafPageElementSize else branchPageElementSize

/-- The per-child byte cost used by `node.size()` and `node.split`:
`elementSize + len(key) + len(value)`. -/
def inodeElemSize (n : Node) (it : Inode) : Nat :=
  pageElementSize n + it.key.length + it.value.length

/-- `node.size()`: header plus the per-child costs. -/
def nodeSize (n : Node) : Nat :=
  pageHeaderSize + (n.children.map (inodeElemSize n)).sum

/-- The node `&node{transaction: n.transaction, isLeaf: n.isLeaf}`
that `split` allocates when it starts a new sibling: every other field
is Go's zero value. -/
def mkFreshSibling (n : Node) : Node :=
  { transaction := n.transaction, isLeaf := n.isLeaf, unbalanced := false,
    key := [], depth := 0, pageID := 0, parent := none, children := [] }

/-- The loop of `node.split`: walk the inodes with index `i`,
accumulating bytes into `size` and children into `current`; when the
current node already holds ≥ `minKeysPerPage` children, at least
`minKeysPerPage` inodes lie strictly beyond the current one
(`i < len(inodes)-minKeysPerPage`), and the next child would push
`size` past the threshold, emit `current` and start a fresh sibling. -/
def splitLoop (n : Node) (threshold total : Nat) :
    Nat → List Inode → Node → Nat → List Node
  | _i, [], current, _size => [current]
  | i, x :: rest, current, size =>
    let elemSize := inodeElemSize n x
    if minKeysPerPage ≤ current.children.length ∧
        i < total - minKeysPerPage ∧ threshold < size + elemSize then
      current :: splitLoop n threshold total (i + 1) rest
        { mkFreshSibling n with children := [x] }
        (pageHeaderSize + elemSize)
    else
      splitLoop n threshold total (i + 1) rest
        { current with children := current.children ++ [x] }
        (size + elemSize)

/-- `node.split(pageSize)`: return `[n]` when the node has at most
`2*minKeysPerPage` children or fits in one page; otherwise regroup the
children with a 50% fill threshold, mutating `n` in place into the
first group. -/
def split (pageSize : Nat) (n : Node) : List Node :=
  if n.children.length ≤ minKeysPerPage * 2 ∨ nodeSize n < pageSize then
    [n]
  else
    splitLoop n (pageSize / 2) n.children.length 0 n.children
      { n with children := [] } pageHeaderSize

/-! ## Cursor search and Get (src/cursor.go)

The writer-visible B+tree: a page is either a leaf (an array of
elements, modelled with `Inode`, `pageID` unused) or a branch whose
elements carry a key and the child subtree (standing for the child
page id resolved through `transaction.page`). -/
inductive BTree where
  | leaf : List Inode → BTree
  | branch : List (List Nat × BTree) → BTree

instance : Inhabited BTree := ⟨.leaf []⟩

/-- The branch comparison at probe index `i` inside `cursor.search`:
`bytes.Compare(inodes[i].key(), key)`. -/
def branchSearchCmp (es : List (List Nat × BTree)) (key : List Nat)
    (i : Nat) : Ordering :=
  bytesCompare (es.getD i ([], .leaf [])).1 key

/-- The `sort.Search` call of `cursor.search` with its `exact` side
effect: the closure records `exact = true` whenever a probe compares
equal, and returns `ret != -1`.  Mirrors Go's binary search loop with
the flag threaded through. -/
def searchExactLoop (cmp : Nat → Ordering) (i j : Nat) (ex : Bool) :
    Nat × Bool :=
  if _h : i < j then
    let m := (i + j) / 2
    let ex2 := ex || (cmp m == Ordering.eq)
    if cmp m != Ordering.lt then searchExactLoop cmp i m ex2
    else searchExactLoop cmp (m + 1) j ex2
  else (i, ex)
termination_by j - i
decreasing_by
  · omega
  · omega

/-- The branch index chosen by `cursor.search`: binary search for the
first key ≥ `key`, then `if !exact && index > 0 { index-- }`. -/
def cursorSearchBranchIndex (es : List (List Nat × BTree))
    (key : List Nat) : Nat :=
  let r := searchExactLoop (branchSearchCmp es key) 0 es.length false
  if !r.2 && decide (0 < r.1) then r.1 - 1 else r.1

/-- `cursor.search`/`cursor.nsearch`: descend from the root; on a
branch choose `cursorSearchBranchIndex` and recurse into that child
(indexing outside the element array reads unrelated memory in Go —
modelled as `none`); on a leaf record the `lower_bound` index.  Returns
the leaf elements and the leaf index the descent lands on. -/
def searchTree (key : List Nat) : BTree → Option (List Inode × Nat)
  | .leaf es => some (es, sortSearch es.length (putSearchPred es key))
  | .branch es =>
    let index := cursorSearchBranchIndex es key
    match hm : es[index]? with
    | none => none
    | some p => searchTree key p.2
termination_by t => sizeOf t
decreasing_by
  have hmem : p ∈ es := by
    rw [List.getElem?_eq_some] at hm
    obtain ⟨h1, h2⟩ := hm
    exact h2 ▸ List.getElem_mem h1
  have h3 : sizeOf p < sizeOf es := List.sizeOf_lt_of_mem hmem
  cases p with
  | mk a b => simp at h3 ⊢; omega

/-- `Cursor.Get(key)` (src/cursor.go lines 59–76): search, then return
nil when the index sits past the last element or the element key
differs from `key`, else the element's value. -/
def cursorGet (key : List Nat) (t : BTree) : Option (List Nat) :=
  match searchTree key t with
  | none => none
  | some (es, index) =>
    if index = es.length then none
    else
      match es[index]? with
      | none => none
      | some e => if e.key = key then some e.value else none

/-- `RWTransaction.Put`'s mutation step `c.node(t).put(key, key, value, 0)`
applied at the leaf the cursor descent lands on, lifted to the tree. -/
def treePut (key value : List Nat) : BTree → Option BTree
  | .leaf es => some (.leaf (nodePut es key key value 0))
  | .branch es =>
    let index := cursorSearchBranchIndex es key
    match hm : es[index]? with
    | none => none
    | some p => (treePut key value p.2).map
        (fun c2 => .branch (es.set index (p.1, c2)))
termination_by t => sizeOf t
decreasing_by
  have hmem : p ∈ es := by
    rw [List.getElem?_eq_some] at hm
    obtain ⟨h1, h2⟩ := hm
    exact h2 ▸ List.getElem_mem h1
  have h3 : sizeOf p < sizeOf es := List.sizeOf_lt_of_mem hmem
  cases p with
  | mk a b => simp at h3 ⊢; omega

/-- Strictly ascending byte-string list, as a computable check. -/
def ascStrict : List (List Nat) → Bool
  | [] => true
  | [_] => true
  | a :: b :: rest => decide (bytesLt a b) && ascStrict (b :: rest)

/-- First key of the leftmost leaf — for a well-formed tree, the
smallest key of the subtree. -/
def treeMinKey : BTree → Option (List Nat)
  | .leaf es => es.head?.map Inode.key
  | .branch es =>
    match hm : es.head? with
    | none => none
    | some p => treeMinKey p.2
termination_by t => sizeOf t
decreasing_by
  have hmem : p ∈ es := List.mem_of_mem_head? hm
  have h3 : sizeOf p < sizeOf es := List.sizeOf_lt_of_mem hmem
  cases p with
  | mk a b => simp at h3 ⊢; omega

mutual
/-- Well-formedness per the claim: keys strictly ascend within every
page, branches are nonempty, and each branch element's key equals the
smallest key of its child subtree. -/
def wellFormed : BTree → Bool
  | .leaf es => ascStrict (es.map Inode.key)
  | .branch es =>
    !es.isEmpty && ascStrict (es.map Prod.fst) && wfChildren es

def wfChildren : List (List Nat × BTree) → Bool
  | [] => true
  | p :: rest =>
    wellFormed p.2 && (treeMinKey p.2 == some p.1) && wfChildren rest
end

/-- The error values of the package (errors.go): each `Err...` value,
plus `none` standing for a nil error where `Option GoErr` is used. -/
inductive GoErr where
  | bucketNotFound
  | bucketExists
  | bucketNameRequired
  | bucketNameTooLarge
  | keyRequired
  | keyTooLarge
  | valueTooLarge
deriving DecidableEq

/-- Go map lookup on an association list (first matching key). -/
def alookup {α : Type} : List (List Nat × α) → List Nat → Option α
  | [], _ => none
  | p :: rest, k => if p.1 = k then some p.2 else alookup rest k

/-- `Transaction.Get(name, key)` (src/tx.go lines 71–78): nil value and
`ErrBucketNotFound` when the bucket is missing; otherwise the cursor's
`Get` on the bucket's tree, with a nil error. -/
def txGet (catalog : List (List Nat × BTree)) (name key : List Nat) :
    Option (List Nat) × Option GoErr :=
  match alookup catalog name with
  | none => (none, some .bucketNotFound)
  | some t => (cursorGet key t, none)

/-! ## RWTransaction.Put (src/rwtx.go lines 147–170) -/
def MaxKeySize : Nat := 32768

def MaxValueSize : Nat := 4294967295

def MaxBucketNameSize : Nat := 255

/-- Overwrite the value stored under `k` (Go map assignment for an
existing key). -/
def aupdate {α : Type} : List (List Nat × α) → List Nat → α →
    List (List Nat × α)
  | [], _, _ => []
  | p :: rest, k, v =>
    if p.1 = k then (p.1, v) :: rest else p :: aupdate rest k v

/-- `RWTransaction.Put(name, key, value)`: bucket lookup, then the size
checks in source order (`len(key) == 0`, `len(key) > MaxKeySize`,
`len(value) > MaxValueSize`), then position a cursor with `c.Get(key)`
and insert via `c.node(t).put(key, key, value, 0)`.  The catalog maps
bucket names to their trees; `none` models a Go panic on a malformed
tree. -/
def rwPut (catalog : List (List Nat × BTree)) (name key value : List Nat) :
    Option (List (List Nat × BTree) × Option GoErr) :=
  match alookup catalog name with
  | none => some (catalog, some .bucketNotFound)
  | some t =>
    if key.length = 0 then some (catalog, some .keyRequired)
    else if MaxKeySize < key.length then some (catalog, some .keyTooLarge)
    else if MaxValueSize < value.length then
      some (catalog, some .valueTooLarge)
    else (treePut key value t).map (fun t2 => (aupdate catalog name t2, none))

/-! ## RWTransaction.CreateBucket (src/rwtx.go lines 83–113) -/
/-- Writer-transaction state visible to `CreateBucket`: the bucket
catalog, the freelist `available` list and the high-water page id. -/
structure WTx where
  buckets : List (List Nat × GoBucket)
  freelist : List Nat
  highWater : Nat

/-- Go map assignment `b.bucketMap[key] = bc`: overwrite or add. -/
def bput : List (List Nat × GoBucket) → List Nat → GoBucket →
    List (List Nat × GoBucket)
  | [], k, b => [(k, b)]
  | p :: rest, k, b =>
    if p.1 = k then (k, b) :: rest else p :: bput rest k b

/-- `DB.allocate(count)` (src/db.go lines 415–439): take a contiguous
run from the freelist when one exists, otherwise allocate at the
high-water mark and advance it (the mmap grow that may happen there is
an external syscall, modelled as succeeding).  `none` is the freelist
panic on page 0/1. -/
def dbAllocate (count : Nat) (st : WTx) : Option (Nat × WTx) :=
  match allocate count st.freelist with
  | none => none
  | some (id, fl2) =>
    if id ≠ 0 then some (id, { st with freelist := fl2 })
    else some (st.highWater, { st with highWater := st.highWater + count })

/-- `RWTransaction.CreateBucket(name)`: the existing-bucket check runs
first, then the empty-name and length checks, then one leaf page is
allocated and the bucket is put into the catalog with that root page
id. -/
def createBucket (st : WTx) (name : List Nat) :
    Option (WTx × Option GoErr) :=
  match alookup st.buckets name with
  | some _ => some (st, some .bucketExists)
  | none =>
    if name.length = 0 then some (st, some .bucketNameRequired)
    else if MaxBucketNameSize < name.length then
      some (st, some .bucketNameTooLarge)
    else (dbAllocate 1 st).map (fun r =>
      ({ r.2 with buckets := bput r.2.buckets name ⟨r.1, 0⟩ }, none))

/-- `RWTransaction.CreateBucketIfNotExists(name)`: forward any error
except `ErrBucketExists`, which is swallowed. -/
def createBucketIfNotExists (st : WTx) (name : List Nat) :
    Option (WTx × Option GoErr) :=
  (createBucket st name).map (fun r =>
    match r.2 with
    | some e => if e ≠ .bucketExists then (r.1, some e) else (r.1, none)
    | none => (r.1, none))

/-! ## Buckets page serialization (src/bucket.go lines 81–147)

`buckets.write` lays out `count` fixed 16-byte records
`{rootPageID u64, sequence u64}` (host-endian in Go; fixed here to
little-endian, which the spec's design notes allow) followed by the
length-prefixed names, names sorted ascending; `buckets.read` parses
them back and associates names to records by index. -/
/-- Little-endian bytes of a `uint64`. -/
def toLE8 (n : Nat) : List Nat :=
  [n % 256, n / 256 % 256, n / 65536 % 256, n / 16777216 % 256,
    n / 4294967296 % 256, n / 1099511627776 % 256,
    n / 281474976710656 % 256, n / 72057594037927936 % 256]

/-- Read a `uint64` from the first eight bytes. -/
def fromLE8 (bs : List Nat) : Nat :=
  match bs with
  | b0 :: b1 :: b2 :: b3 :: b4 :: b5 :: b6 :: b7 :: _ =>
    b0 + 256 * b1 + 65536 * b2 + 16777216 * b3 + 4294967296 * b4 +
      1099511627776 * b5 + 281474976710656 * b6 +
      72057594037927936 * b7
  | _ => 0

/-- The 16 bytes of one on-page bucket record. -/
def bucketRecBytes (b : GoBucket) : List Nat :=
  toLE8 b.rootPageID ++ toLE8 b.sequence

/-- Parse one 16-byte bucket record. -/
def readBucketRec (bs : List Nat) : GoBucket :=
  ⟨fromLE8 bs, fromLE8 (bs.drop 8)⟩

/-- Go string order (`sort.StringSlice`): lexicographic byte order. -/
def bytesLe (a b : List Nat) : Prop := bytesCompare a b ≠ .gt

instance (a b : List Nat) : Decidable (bytesLe a b) := by
  unfold bytesLe
  infer_instance

/-- `buckets.write(p)`: `p.count = uint16(len(bucketMap))`, the sorted
records, then the length-prefixed (one byte, `byte(len(key))`) names.
Returns `(p.count, body bytes)`. -/
def writeBuckets (m : List (List Nat × GoBucket)) : Nat × List Nat :=
  let entries := List.insertionSort (fun a b => bytesLe a.1 b.1) m
  (m.length % 65536,
    (entries.map (fun e => bucketRecBytes e.2)).flatten ++
      (entries.map (fun e => e.1.length % 256 :: e.1)).flatten)

/-- Parse `count` records of 16 bytes each. -/
def readRecs : Nat → List Nat → List GoBucket
  | 0, _ => []
  | c + 1, bs => readBucketRec bs :: readRecs c (bs.drop 16)

/-- Parse `count` length-prefixed names. -/
def readNames : Nat → List Nat → List (List Nat)
  | 0, _ => []
  | c + 1, bs =>
    let size := bs.headD 0
    bs.tail.take size :: readNames c (bs.tail.drop size)

/-- `buckets.read(p)`: parse the records and the names and associate
them by index into the map. -/
def readBuckets (count : Nat) (bs : List Nat) :
    List (List Nat × GoBucket) :=
  (readNames count (bs.drop (16 * count))).zip (readRecs count bs)

theorem bytesCompare_eq_iff : ∀ a b : List Nat, bytesCompare a b = .eq ↔ a = b
  | [], [] => by simp [bytesCompare]
  | [], _ :: _ => by simp [bytesCompare]
  | _ :: _, [] => by simp [bytesCompare]
  | a :: as, b :: bs => by
    by_cases h1 : a < b
    · simp [bytesCompare, h1]
      omega
    · by_cases h2 : b < a
      · simp [bytesCompare, h1, h2]
        omega
      · have hab : a = b := by omega
        simp [bytesCompare, h1, h2, hab, bytesCompare_eq_iff as bs]

theorem bytesCompare_swap : ∀ a b : List Nat,
    bytesCompare b a = (bytesCompare a b).swap
  | [], [] => rfl
  | [], _ :: _ => rfl
  | _ :: _, [] => rfl
  | a :: as, b :: bs => by
    by_cases h1 : a < b
    · have h2 : ¬ b < a := by omega
      simp [bytesCompare, h1, h2, Ordering.swap]
    · by_cases h2 : b < a
      · simp [bytesCompare, h1, h2, Ordering.swap]
      · simp [bytesCompare, h1, h2, bytesCompare_swap as bs]

theorem bytesLt_trans : ∀ {a b c : List Nat},
    bytesLt a b → bytesLt b c → bytesLt a c := by
  intro a
  induction a with
  | nil =>
    intro b c hab hbc
    cases b with
    | nil => exact absurd hab (by simp [bytesLt, bytesCompare])
    | cons y ys =>
      cases c with
      | nil => exact absurd hbc (by simp [bytesLt, bytesCompare])
      | cons z zs => simp [bytesLt, bytesCompare]
  | cons x xs ih =>
    intro b c hab hbc
    cases b with
    | nil => exact absurd hab (by simp [bytesLt, bytesCompare])
    | cons y ys =>
      cases c with
      | nil => exact absurd hbc (by simp [bytesLt, bytesCompare])
      | cons z zs =>
        simp only [bytesLt, bytesCompare] at hab hbc ⊢
        by_cases hxy : x < y
        · by_cases hyz : y < z
          · simp [show x < z by omega]
          · by_cases hzy : z < y
            · simp [hyz, hzy] at hbc
            · have : y = z := by omega
              subst this
              simp [hxy]
        · by_cases hyx : y < x
          · simp [hxy, hyx] at hab
          · have hx : x = y := by omega
            subst hx
            simp only [lt_irrefl, if_false] at hab
            by_cases hyz : x < z
            · simp [hyz]
            · by_cases hzy : z < x
              · simp [hyz, hzy] at hbc
              · have : x = z := by omega
                subst this
                simp only [lt_irrefl, if_false] at hbc ⊢
                exact ih hab hbc

theorem bytesLt_irrefl (a : List Nat) : ¬ bytesLt a a := by
  simp [bytesLt]

theorem sortSearchLoop_le (f : Nat → Bool) (i j : Nat) (h : i ≤ j) :
    sortSearchLoop f i j ≤ j := by
  induction i, j using sortSearchLoop.induct f with
  | case1 i j hij m hm ih =>
    rw [sortSearchLoop]
    simp only [hij, dif_pos, hm, if_pos]
    exact le_trans (ih (by omega)) (by omega)
  | case2 i j hij m hm ih =>
    rw [sortSearchLoop]
    simp only [hij, dif_pos, hm, if_neg, Bool.false_eq_true, not_false_iff]
    exact ih (by omega)
  | case3 i j hij =>
    rw [sortSearchLoop, dif_neg hij]
    omega

theorem le_sortSearchLoop (f : Nat → Bool) (i j : Nat) :
    i ≤ sortSearchLoop f i j := by
  induction i, j using sortSearchLoop.induct f with
  | case1 i j hij m hm ih =>
    rw [sortSearchLoop]
    simp only [hij, dif_pos, hm, if_pos]
    exact ih
  | case2 i j hij m hm ih =>
    rw [sortSearchLoop]
    simp only [hij, dif_pos, hm, if_neg, Bool.false_eq_true, not_false_iff]
    exact le_trans (by omega) ih
  | case3 i j hij =>
    rw [sortSearchLoop]
    simp [hij]

/-- Below the index found by the binary search the predicate is false;
the predicate only needs to be monotone on `[0, N)`, the range the
search can probe (`N` bounds the initial right end). -/
theorem sortSearchLoop_false_below (f : Nat → Bool) (N : Nat)
    (hmono : ∀ a b, a ≤ b → b < N → f a = true → f b = true) :
    ∀ i j, j ≤ N → (∀ k, k < i → f k = false) →
      ∀ k, k < sortSearchLoop f i j → f k = false := by
  intro i j
  induction i, j using sortSearchLoop.induct f with
  | case1 i j hij m hm ih =>
    intro hjN hlo k hk
    rw [sortSearchLoop] at hk
    simp only [hij, dif_pos, hm, if_pos] at hk
    exact ih (by omega) hlo k hk
  | case2 i j hij m hm ih =>
    intro hjN hlo k hk
    rw [sortSearchLoop] at hk
    simp only [hij, dif_pos, hm, if_neg, Bool.false_eq_true, not_false_iff] at hk
    refine ih hjN ?_ k hk
    intro k' hk'
    by_cases h' : k' < i
    · exact hlo k' h'
    · by_cases hf : f k' = true
      · exact absurd (hmono k' m (by omega) (by omega) hf) (by simp [hm])
      · simpa using hf
  | case3 i j hij =>
    intro hjN hlo k hk
    rw [sortSearchLoop] at hk
    simp only [hij, dif_neg] at hk
    exact hlo k hk

/-- At the found index the predicate holds, provided the search did not
run off the right end (`N` is the right end of the initial interval, on
`[j, N)` the predicate holds, and it is monotone on `[0, N)`). -/
theorem sortSearchLoop_true_at (f : Nat → Bool) (N : Nat)
    (hmono : ∀ a b, a ≤ b → b < N → f a = true → f b = true) :
    ∀ i j, (∀ k, j ≤ k → k < N → f k = true) →
      sortSearchLoop f i j < N → f (sortSearchLoop f i j) = true := by
  intro i j
  induction i, j using sortSearchLoop.induct f with
  | case1 i j hij m hm ih =>
    intro hhi hlt
    rw [sortSearchLoop] at hlt ⊢
    simp only [hij, dif_pos, hm, if_pos] at hlt ⊢
    refine ih ?_ hlt
    intro k hk1 hk2
    exact hmono m k hk1 hk2 hm
  | case2 i j hij m hm ih =>
    intro hhi hlt
    rw [sortSearchLoop] at hlt ⊢
    simp only [hij, dif_pos, hm, if_neg, Bool.false_eq_true, not_false_iff] at hlt ⊢
    exact ih hhi hlt
  | case3 i j hij =>
    intro hhi hlt
    rw [sortSearchLoop, dif_neg hij] at hlt ⊢
    exact hhi _ (by omega) hlt

theorem runLen_succ (l : List Nat) (i : Nat) :
    runLen l (i + 1) = if contigStep l i then runLen l i + 1 else 1 := rfl

theorem runLen_pos (l : List Nat) (i : Nat) : 1 ≤ runLen l i := by
  cases i with
  | zero => simp [runLen]
  | succ i => rw [runLen_succ]; split <;> omega

theorem runLen_le (l : List Nat) : ∀ i, runLen l i ≤ i + 1 := by
  intro i
  induction i with
  | zero => simp [runLen]
  | succ i ih => rw [runLen_succ]; split <;> omega

/-- The block counter only ever grows by one, so it passes through
every value below its current one at an earlier index. -/
theorem runLen_exists_eq (l : List Nat) :
    ∀ i n, 0 < n → n ≤ runLen l i → ∃ i' ≤ i, runLen l i' = n := by
  intro i
  induction i with
  | zero =>
    intro n h1 h2
    simp [runLen] at h2
    exact ⟨0, le_refl 0, by simp [runLen]; omega⟩
  | succ i ih =>
    intro n h1 h2
    by_cases heq : runLen l (i + 1) = n
    · exact ⟨i + 1, le_refl _, heq⟩
    · rw [runLen_succ] at h2 heq
      by_cases hc : contigStep l i = true
      · rw [if_pos hc] at h2 heq
        obtain ⟨i', hi', h⟩ := ih n h1 (by omega)
        exact ⟨i', by omega, h⟩
      · rw [if_neg hc] at h2 heq
        omega

/-- Every step inside the block counted by `runLen` is a
descending-contiguous step. -/
theorem runLen_chain (l : List Nat) :
    ∀ i k, k < runLen l i - 1 → contigStep l (i - 1 - k) = true := by
  intro i
  induction i with
  | zero => simp [runLen]
  | succ i ih =>
    intro k hk
    rw [runLen_succ] at hk
    by_cases hc : contigStep l i = true
    · rw [if_pos hc] at hk
      cases k with
      | zero => simpa using hc
      | succ k' =>
        have h' : contigStep l (i - 1 - k') = true := ih k' (by omega)
        have heq : i + 1 - 1 - (k' + 1) = i - 1 - k' := by omega
        rw [heq]
        exact h'
    · rw [if_neg hc] at hk
      omega

/-- The positional characterization of a run: a run of `n` ids occupies
positions `j .. j+n-1` exactly when the block counter at its last
position has reached `n`. -/
theorem isRunAt_iff_runLen (l : List Nat) (j n : Nat) :
    IsRunAt l j n ↔
      0 < n ∧ j + n ≤ l.length ∧ n ≤ runLen l (j + n - 1) := by
  constructor
  · rintro ⟨hn, hlen, hchain⟩
    refine ⟨hn, hlen, ?_⟩
    have aux : ∀ k, k ≤ n - 1 → k + 1 ≤ runLen l (j + k) := by
      intro k
      induction k with
      | zero => intro _; exact runLen_pos l j
      | succ k' ih2 =>
        intro hk
        have hstep : contigStep l (j + k') = true := hchain k' (by omega)
        have h1 := ih2 (by omega)
        have h2 : runLen l (j + (k' + 1)) = runLen l (j + k') + 1 := by
          rw [show j + (k' + 1) = (j + k') + 1 by omega, runLen_succ,
            if_pos hstep]
        omega
    have h3 := aux (n - 1) (le_refl _)
    have heq : j + (n - 1) = j + n - 1 := by omega
    rw [heq] at h3
    omega
  · rintro ⟨hn, hlen, hrl⟩
    refine ⟨hn, hlen, ?_⟩
    intro k hk
    have h' : (n - 2 - k) < runLen l (j + n - 1) - 1 := by omega
    have h2 := runLen_chain l (j + n - 1) (n - 2 - k) h'
    have heq : j + n - 1 - 1 - (n - 2 - k) = j + k := by omega
    rwa [heq] at h2

/-- The reset step of the `allocate` loop: under the loop invariant,
the value the `count` variable takes after the reset at index `i` is
exactly `runLen l i`. -/
theorem count1_eq_runLen (l : List Nat) (hids : ∀ x ∈ l, 2 ≤ x)
    (i previd count : Nat) (h : i < l.length)
    (hinv : (i = 0 ∧ previd = 0) ∨
      (0 < i ∧ l[i - 1]? = some previd ∧ count = runLen l (i - 1) + 1)) :
    (if previd = 0 ∨ previd ≠ l[i] + 1 then 1 else count) = runLen l i := by
  rcases hinv with ⟨hi0, hp0⟩ | ⟨hipos, hprev, hcount⟩
  · subst hi0 hp0
    rw [if_pos (Or.inl rfl)]
    simp [runLen]
  · have hmem : previd ∈ l := by
      have h1 : i - 1 < l.length := by omega
      have h2 := List.getElem?_eq_getElem h1
      rw [h2] at hprev
      exact (Option.some_inj.mp hprev) ▸ List.getElem_mem h1
    have hpge : 2 ≤ previd := hids _ hmem
    have hcontig : contigStep l (i - 1) = (previd == l[i] + 1) := by
      unfold contigStep
      rw [show i - 1 + 1 = i by omega, hprev, List.getElem?_eq_getElem h]
    have hrun : runLen l i =
        if contigStep l (i - 1) then runLen l (i - 1) + 1 else 1 := by
      rw [show i = (i - 1) + 1 by omega, runLen_succ]
      rw [show i - 1 + 1 - 1 = i - 1 by omega]
    by_cases hstep : previd = l[i] + 1
    · rw [if_neg (by omega : ¬ (previd = 0 ∨ previd ≠ l[i] + 1))]
      rw [hrun, if_pos (by rw [hcontig]; simp [hstep]), hcount]
    · rw [if_pos (Or.inr hstep)]
      rw [hrun, if_neg (by rw [hcontig]; simp [hstep])]

/-- `allocate` scan, miss case: if no block of length `n` ends at or
beyond index `i`, the loop returns `0` and leaves the list alone. -/
theorem allocateLoop_none (n : Nat) (l : List Nat)
    (hids : ∀ x ∈ l, 2 ≤ x) :
    ∀ i previd count, AllocInv l i previd count →
      (∀ i', i ≤ i' → i' < l.length → runLen l i' ≠ n) →
      allocateLoop n l i previd count = some (0, l) := by
  intro i previd count
  induction i, previd, count using allocateLoop.induct n l with
  | case1 i previd count h id count1 hc1 hle =>
    intro hinv hmiss
    exfalso
    have := count1_eq_runLen l hids i previd count h hinv
    exact hmiss i (le_refl i) h (by rw [← this]; exact hc1)
  | case2 i previd count h id count1 hc1 hgt =>
    intro hinv hmiss
    exfalso
    have := count1_eq_runLen l hids i previd count h hinv
    exact hmiss i (le_refl i) h (by rw [← this]; exact hc1)
  | case3 i previd count h id count1 hc1 ih =>
    intro hinv hmiss
    have hc1r := count1_eq_runLen l hids i previd count h hinv
    rw [allocateLoop, dif_pos h]
    have hc1' : ¬ (if previd = 0 ∨ previd ≠ l[i] + 1 then 1 else count) = n :=
      hc1
    rw [if_neg hc1']
    refine ih (Or.inr ⟨by omega, ?_, ?_⟩) ?_
    · show l[i]? = some id
      exact List.getElem?_eq_getElem h
    · show count1 + 1 = runLen l i + 1
      have hce : count1 = runLen l i := hc1r
      omega
    · intro i' hi' hlen
      exact hmiss i' (by omega) hlen
  | case4 i previd count h =>
    intro hinv hmiss
    rw [allocateLoop, dif_neg h]

/-- `allocate` scan, hit case: the loop removes the block ending at the
first index `i0 >= i` where the block counter reaches `n`, and returns
the id there (the lowest of the run). -/
theorem allocateLoop_hit (n : Nat) (l : List Nat)
    (hids : ∀ x ∈ l, 2 ≤ x) :
    ∀ i previd count, AllocInv l i previd count →
      ∀ i0, i ≤ i0 → ∀ h0 : i0 < l.length, runLen l i0 = n →
        (∀ i', i ≤ i' → i' < i0 → runLen l i' ≠ n) →
        allocateLoop n l i previd count =
          some (l.get ⟨i0, h0⟩, l.take (i0 - (n - 1)) ++ l.drop (i0 + 1)) := by
  intro i previd count
  induction i, previd, count using allocateLoop.induct n l with
  | case1 i previd count h id count1 hc1 hle =>
    intro hinv i0 hi0 h0 hrun hmiss
    exfalso
    have hge : 2 ≤ id := hids _ (List.getElem_mem h)
    omega
  | case2 i previd count h id count1 hc1 hgt =>
    intro hinv i0 hi0 h0 hrun hmiss
    have hc1r : count1 = runLen l i :=
      count1_eq_runLen l hids i previd count h hinv
    have hii0 : i = i0 := by
      by_contra hne
      exact hmiss i (le_refl i) (by omega) (by rw [← hc1r]; exact hc1)
    subst hii0
    rw [allocateLoop, dif_pos h]
    have hc1' : (if previd = 0 ∨ previd ≠ l[i] + 1 then 1 else count) = n :=
      hc1
    rw [if_pos hc1', if_neg (by have : 2 ≤ l[i] := hids _ (List.getElem_mem h); omega : ¬ l[i] ≤ 1)]
    rfl
  | case3 i previd count h id count1 hc1 ih =>
    intro hinv i0 hi0 h0 hrun hmiss
    have hc1r : count1 = runLen l i :=
      count1_eq_runLen l hids i previd count h hinv
    have hii0 : i ≠ i0 := by
      intro he
      exact hc1 (by rw [hc1r, he, hrun])
    rw [allocateLoop, dif_pos h]
    have hc1' : ¬ (if previd = 0 ∨ previd ≠ l[i] + 1 then 1 else count) = n :=
      hc1
    rw [if_neg hc1']
    refine ih (Or.inr ⟨by omega, ?_, ?_⟩) i0 (by omega) h0 hrun ?_
    · show l[i]? = some id
      exact List.getElem?_eq_getElem h
    · show count1 + 1 = runLen l i + 1
      omega
    · intro i' hi' hlt
      exact hmiss i' (by omega) hlt
  | case4 i previd count h =>
    intro hinv i0 hi0 h0 hrun hmiss
    omega

/-- Run existence matches the block counter reaching `n` somewhere. -/
theorem exists_run_iff_exists_runLen (l : List Nat) (n : Nat) (hn : 1 ≤ n) :
    (∃ j, IsRunAt l j n) ↔ ∃ i0, i0 < l.length ∧ runLen l i0 = n := by
  constructor
  · rintro ⟨j, hj⟩
    rw [isRunAt_iff_runLen] at hj
    obtain ⟨hn', hlen, hrl⟩ := hj
    obtain ⟨i', hi'le, hi'⟩ := runLen_exists_eq l (j + n - 1) n hn' hrl
    exact ⟨i', by omega, hi'⟩
  · rintro ⟨i0, hlen, hrl⟩
    refine ⟨i0 - (n - 1), ?_⟩
    rw [isRunAt_iff_runLen]
    have hle := runLen_le l i0
    refine ⟨hn, by omega, ?_⟩
    rw [show i0 - (n - 1) + n - 1 = i0 by omega, hrl]

/-- The ids inside a run: position `j+k` of the list carries the id
`lowest + (n-1-k)`. -/
theorem isRunAt_values (l : List Nat) (j n : Nat) (hrun : IsRunAt l j n)
    (v : Nat) (hv : l[j + n - 1]? = some v) :
    ∀ k < n, l[j + k]? = some (v + (n - 1 - k)) := by
  obtain ⟨hn, hlen, hchain⟩ := hrun
  have aux : ∀ d, d ≤ n - 1 → l[j + (n - 1 - d)]? = some (v + d) := by
    intro d
    induction d with
    | zero =>
      intro _
      rw [show j + (n - 1 - 0) = j + n - 1 by omega]
      simpa using hv
    | succ d' ih =>
      intro hd
      have hprev := ih (by omega)
      have hstep : contigStep l (j + (n - 1 - (d' + 1))) = true :=
        hchain _ (by omega)
      unfold contigStep at hstep
      rw [show j + (n - 1 - (d' + 1)) + 1 = j + (n - 1 - d') by omega,
        hprev] at hstep
      cases hget : l[j + (n - 1 - (d' + 1))]? with
      | none => rw [hget] at hstep; simp at hstep
      | some a =>
        rw [hget] at hstep
        simp only [beq_iff_eq] at hstep
        exact congrArg some (by omega)
  intro k hk
  have := aux (n - 1 - k) (by omega)
  rwa [show j + (n - 1 - (n - 1 - k)) = j + k by omega] at this

/-- Full functional correctness of `freelist.allocate` relative to the
scan order of the descending list: a hit removes the first-encountered
run (the run at the lowest position, hence the one with the highest
ids) and returns its lowest id. -/
theorem allocate_spec (n : Nat) (l : List Nat) (hn : 1 ≤ n)
    (hids : ∀ x ∈ l, 2 ≤ x) :
    ∃ r, allocate n l = some r ∧
      (r.1 = 0 ↔ ¬ ∃ j, IsRunAt l j n) ∧
      (r.1 = 0 → r.2 = l) ∧
      (r.1 ≠ 0 → 2 ≤ r.1 ∧ ∃ j, FirstRunStart l n j ∧
        l[j + n - 1]? = some r.1 ∧
        r.2 = l.take j ++ l.drop (j + n) ∧
        ∀ k < n, l[j + k]? = some (r.1 + (n - 1 - k))) := by
  by_cases hex : ∃ i0, i0 < l.length ∧ runLen l i0 = n
  · have hlen0 : Nat.find hex < l.length := (Nat.find_spec hex).1
    have hrl0 : runLen l (Nat.find hex) = n := (Nat.find_spec hex).2
    set i0 := Nat.find hex with hi0def
    have heq := allocateLoop_hit n l hids 0 0 0 (Or.inl ⟨rfl, rfl⟩) i0
      (Nat.zero_le _) hlen0 hrl0 ?hmiss
    case hmiss =>
      intro i' _ hlt
      intro hcon
      exact Nat.find_min hex hlt ⟨by omega, hcon⟩
    have hge2 : 2 ≤ l.get ⟨i0, hlen0⟩ := hids _ (List.get_mem l i0 hlen0)
    refine ⟨_, heq, ?_, ?_, ?_⟩
    · constructor
      · intro h0
        have h0' : l.get ⟨i0, hlen0⟩ = 0 := h0
        omega
      · intro hno
        exfalso
        exact hno ((exists_run_iff_exists_runLen l n hn).mpr hex)
    · intro h0
      have h0' : l.get ⟨i0, hlen0⟩ = 0 := h0
      omega
    · intro _
      have hle := runLen_le l i0
      have hjn : n - 1 ≤ i0 := by omega
      refine ⟨hge2, i0 - (n - 1), ⟨?_, ?_⟩, ?_, ?_, ?_⟩
      · rw [isRunAt_iff_runLen]
        exact ⟨hn, by omega, by rw [show i0 - (n - 1) + n - 1 = i0 by omega, hrl0]⟩
      · intro j' hj'
        rw [isRunAt_iff_runLen] at hj'
        obtain ⟨_, hlen', hrl'⟩ := hj'
        obtain ⟨i', hi'le, hi'⟩ := runLen_exists_eq l (j' + n - 1) n hn hrl'
        have : i0 ≤ i' := Nat.find_min' hex ⟨by omega, hi'⟩
        omega
      · rw [show i0 - (n - 1) + n - 1 = i0 by omega]
        exact List.getElem?_eq_getElem hlen0
      · show l.take (i0 - (n - 1)) ++ l.drop (i0 + 1) = _
        rw [show i0 - (n - 1) + n = i0 + 1 by omega]
      · intro k hk
        refine isRunAt_values l (i0 - (n - 1)) n ?_ _ ?_ k hk
        · rw [isRunAt_iff_runLen]
          exact ⟨hn, by omega, by rw [show i0 - (n - 1) + n - 1 = i0 by omega, hrl0]⟩
        · rw [show i0 - (n - 1) + n - 1 = i0 by omega]
          exact List.getElem?_eq_getElem hlen0
  · have heq := allocateLoop_none n l hids 0 0 0 (Or.inl ⟨rfl, rfl⟩) ?hmiss
    case hmiss =>
      intro i' _ hlt hcon
      exact hex ⟨i', hlt, hcon⟩
    refine ⟨(0, l), heq, ?_, fun _ => rfl, fun h0 => absurd rfl h0⟩
    simp only [true_iff]
    intro hrun
    exact hex ((exists_run_iff_exists_runLen l n hn).mp hrun)

/-- C1, counterexample to the claim as stated.  On the freelist
`[18,13,12,9,7,6,5,4,3]` (sorted descending, ids all ≥ 2),
`allocate(2)` returns id 12 — the lowest id of the first run met by the
scan of the descending list — yet a run of length 2 with a lower
starting id exists: positions 7–8 hold the run `{3,4}` whose lowest id
is 3.  Hence the returned id is not the lowest id of the
lowest-starting run, refuting the parenthetical reading of the claim
(which its own example sequence also contradicts). -/
theorem allocate_not_lowest_starting_run :
    allocate 2 [18, 13, 12, 9, 7, 6, 5, 4, 3] =
      some (12, [18, 9, 7, 6, 5, 4, 3]) ∧
    IsRunAt [18, 13, 12, 9, 7, 6, 5, 4, 3] 7 2 ∧
    [18, 13, 12, 9, 7, 6, 5, 4, 3][7 + 2 - 1]? = some 3 ∧
    (12 : Nat) ≠ 3 :=
  ⟨by simp [allocate, allocateLoop], by decide, by decide, by decide⟩

/-- C1 (amended): for every freelist whose `available` list is sorted
descending with only ids ≥ 2, and every n ≥ 1, `allocate(n)` (which
never panics on such input) returns 0 iff no ascending contiguous run
of n page ids exists in the list; when it returns a nonzero id, that id
is the lowest id of the first such run encountered in the scan of the
descending list (the run at the lowest position, hence the one with
the highest ids — not the lowest-starting run), exactly those n ids
`id .. id+n-1` (sitting at positions j .. j+n-1) are removed from the
list, and every removed id is ≥ 2.  In particular, starting from
`[18,13,12,9,7,6,5,4,3]`, the calls allocate(2), allocate(1),
allocate(3), allocate(3), allocate(2), allocate(1), allocate(0) return
12, 18, 5, 0, 3, 9, 0 and leave the list empty. -/
theorem allocate_firstEncounteredRun_spec :
    (∀ (n : Nat) (l : List Nat), 1 ≤ n → l.Sorted (· > ·) →
      (∀ x ∈ l, 2 ≤ x) →
      ∃ r, allocate n l = some r ∧
        (r.1 = 0 ↔ ¬ ∃ j, IsRunAt l j n) ∧
        (r.1 = 0 → r.2 = l) ∧
        (r.1 ≠ 0 → 2 ≤ r.1 ∧ ∃ j, FirstRunStart l n j ∧
          l[j + n - 1]? = some r.1 ∧
          r.2 = l.take j ++ l.drop (j + n) ∧
          ∀ k < n, l[j + k]? = some (r.1 + (n - 1 - k)))) ∧
    (allocate 2 [18, 13, 12, 9, 7, 6, 5, 4, 3] =
        some (12, [18, 9, 7, 6, 5, 4, 3]) ∧
      allocate 1 [18, 9, 7, 6, 5, 4, 3] = some (18, [9, 7, 6, 5, 4, 3]) ∧
      allocate 3 [9, 7, 6, 5, 4, 3] = some (5, [9, 4, 3]) ∧
      allocate 3 [9, 4, 3] = some (0, [9, 4, 3]) ∧
      allocate 2 [9, 4, 3] = some (3, [9]) ∧
      allocate 1 [9] = some (9, []) ∧
      allocate 0 ([] : List Nat) = some (0, [])) := by
  constructor
  · intro n l hn _hsorted hids
    exact allocate_spec n l hn hids
  · refine ⟨?_, ?_, ?_, ?_, ?_, ?_, ?_⟩ <;> simp [allocate, allocateLoop]

/-- C1, witness: the amended theorem applied at the concrete freelist
of the spec example, with all hypotheses discharged there. -/
theorem allocate_firstEncounteredRun_spec_witness :
    (1 ≤ 2 ∧ ([18, 13, 12, 9, 7, 6, 5, 4, 3] : List Nat).Sorted (· > ·) ∧
      (∀ x ∈ ([18, 13, 12, 9, 7, 6, 5, 4, 3] : List Nat), 2 ≤ x)) ∧
    (∃ r, allocate 2 [18, 13, 12, 9, 7, 6, 5, 4, 3] = some r ∧ r.1 ≠ 0) := by
  refine ⟨⟨by decide, by decide, by decide⟩, ?_⟩
  obtain ⟨r, hr, hiff, -, -⟩ :=
    allocate_firstEncounteredRun_spec.1 2 [18, 13, 12, 9, 7, 6, 5, 4, 3]
      (by decide) (by decide) (by decide)
  refine ⟨r, hr, ?_⟩
  intro h0
  exact (hiff.mp h0) ⟨1, by decide⟩

/-- C2 (code bug): `freelist.release` is an empty TODO stub, so it is
the identity on the freelist state: `release T f = f` for every `T` and
`f`.  In particular, on the state with available `[9, 4]` and pending
`{3 ↦ [5, 6], 7 ↦ [8]}`, after `release 3` the pending page id 5 of
transaction 3 (≤ 3) is still NOT in the available list and the pending
entry for transaction 3 is still present — contradicting the claim that
every `pending[t]` with `t ≤ T` is moved into `available` and those
pending entries are gone. -/
theorem release_noop :
    (∀ (T : Nat) (f : Freelist), release T f = f) ∧
    5 ∉ (release 3 (Freelist.mk [9, 4] [(3, [5, 6]), (7, [8])])).pageIDs ∧
    (3, [5, 6]) ∈
      (release 3 (Freelist.mk [9, 4] [(3, [5, 6]), (7, [8])])).pendingPageIDMap := by
  exact ⟨fun T f => rfl, by decide, by decide⟩

/-- C3 (code bug): the claim — any failing I/O step of Commit makes
Commit return a non-nil error, in particular a failure of the final
meta-page write — is what Commit's own doc comment promises, but the
code drops two errors.  When every step succeeds except the final
meta-page `WriteAt` (error 7), the meta page is not durable yet
`Commit` returns nil; a spill failure (error 5) is likewise swallowed
and `Commit` returns nil. -/
theorem commit_swallows_io_errors :
    commit ⟨none, none, none, some 7⟩ = none ∧
    metaDurable ⟨none, none, none, some 7⟩ = false ∧
    commit ⟨some 5, none, none, none⟩ = none ∧
    commit ⟨none, some 9, none, none⟩ = some 9 ∧
    commit ⟨none, none, some 9, none⟩ = some 9 := by
  decide

/-- C4 (code bug): `Buckets()` returns exactly the iteration order of
the Go map — every live bucket once, no deleted bucket — but nothing
sorts it, while the claim (and the repo's own `TestTransactionBuckets`)
requires ascending name order `bar, baz, foo` for the catalog
`{foo, bar, baz}`.  Iterating the map as `foo, bar, baz` (a legal order
for a Go map) yields an output that is not ascending. -/
theorem bucketsGo_order_unspecified :
    (∀ iter : List (List Nat × GoBucket),
      (bucketsGo iter).map BucketRef.name = iter.map Prod.fst) ∧
    ∃ iter : List (List Nat × GoBucket),
      iter.Perm [([102, 111, 111], ⟨4, 0⟩), ([98, 97, 114], ⟨5, 0⟩),
        ([98, 97, 122], ⟨6, 0⟩)] ∧
      (bucketsGo iter).map BucketRef.name =
        [[102, 111, 111], [98, 97, 114], [98, 97, 122]] ∧
      (bucketsGo iter).map BucketRef.name ≠
        [[98, 97, 114], [98, 97, 122], [102, 111, 111]] ∧
      ¬ ((bucketsGo iter).map BucketRef.name).Sorted bytesLt := by
  constructor
  · intro iter
    simp [bucketsGo]
  · refine ⟨[([102, 111, 111], ⟨4, 0⟩), ([98, 97, 114], ⟨5, 0⟩),
      ([98, 97, 122], ⟨6, 0⟩)], List.Perm.refl _, by simp [bucketsGo],
      by decide, ?_⟩
    intro hs
    rw [show (bucketsGo [([102, 111, 111], ⟨4, 0⟩), ([98, 97, 114], ⟨5, 0⟩),
      ([98, 97, 122], ⟨6, 0⟩)]).map BucketRef.name =
        [[102, 111, 111], [98, 97, 114], [98, 97, 122]] by simp [bucketsGo]]
      at hs
    have h1 := List.rel_of_sorted_cons hs [98, 97, 114] (by simp)
    exact absurd h1 (by decide)

theorem bytesCompare_gt_iff (a b : List Nat) :
    bytesCompare a b = .gt ↔ bytesLt b a := by
  unfold bytesLt
  rw [bytesCompare_swap a b]
  cases bytesCompare a b <;> simp [Ordering.swap]

theorem bytesLt_asymm {a b : List Nat} (h : bytesLt a b) : ¬ bytesLt b a :=
  fun h2 => bytesLt_irrefl a (bytesLt_trans h h2)

theorem not_bytesLt_iff (a b : List Nat) :
    ¬ bytesLt a b ↔ a = b ∨ bytesLt b a := by
  unfold bytesLt
  rw [bytesCompare_swap a b]
  cases h : bytesCompare a b with
  | lt =>
    have hne : a ≠ b := by
      intro he
      subst he
      rw [bytesCompare_self] at h
      simp at h
    simp [Ordering.swap, hne]
  | eq =>
    simp only [Ordering.swap]
    have := (bytesCompare_eq_iff a b).mp h
    simp [this]
  | gt =>
    simp [Ordering.swap]

theorem keys_sorted_get {children : List Inode}
    (hs : (children.map Inode.key).Pairwise bytesLt)
    {a b : Nat} (ha : a < children.length) (hb : b < children.length)
    (hab : a < b) : bytesLt children[a].key children[b].key := by
  rw [List.pairwise_iff_get] at hs
  have h := hs ⟨a, by simpa⟩ ⟨b, by simpa⟩ (by simpa using hab)
  simpa [List.get_eq_getElem, List.getElem_map] using h

theorem putSearchPred_false_iff (children : List Inode) (oldKey : List Nat)
    {k : Nat} (hk : k < children.length) :
    putSearchPred children oldKey k = false ↔
      bytesLt children[k].key oldKey := by
  unfold putSearchPred
  rw [List.getD_eq_getElem _ _ hk]
  unfold bytesLt
  cases bytesCompare children[k].key oldKey <;> decide

theorem putSearchPred_true_iff (children : List Inode) (oldKey : List Nat)
    {k : Nat} (hk : k < children.length) :
    putSearchPred children oldKey k = true ↔
      ¬ bytesLt children[k].key oldKey := by
  have h := putSearchPred_false_iff children oldKey hk
  cases hp : putSearchPred children oldKey k <;> simp_all

theorem putSearchPred_mono (children : List Inode) (oldKey : List Nat)
    (hs : (children.map Inode.key).Pairwise bytesLt) :
    ∀ a b, a ≤ b → b < children.length →
      putSearchPred children oldKey a = true →
      putSearchPred children oldKey b = true := by
  intro a b hab hb hpa
  have ha : a < children.length := by omega
  rw [putSearchPred_true_iff _ _ ha] at hpa
  rw [putSearchPred_true_iff _ _ hb]
  rcases Nat.eq_or_lt_of_le hab with he | hlt
  · subst he
    exact hpa
  · have hk := keys_sorted_get hs ha hb hlt
    rw [not_bytesLt_iff] at hpa ⊢
    rcases hpa with he | hgt
    · right
      rw [← he]
      exact hk
    · right
      exact bytesLt_trans hgt hk

/-- Functional correctness of `node.put` on sorted, duplicate-free
children: an existing child with key `oldKey` is overwritten in place;
otherwise the new child is inserted at the sorted position (every
earlier key is below `oldKey`, every later one is not). -/
theorem nodePut_spec (children : List Inode) (oldKey newKey value : List Nat)
    (pid : Nat) (hs : (children.map Inode.key).Pairwise bytesLt) :
    ((∃ (j : Nat) (c : Inode), children[j]? = some c ∧ c.key = oldKey) →
      ∃ (j : Nat) (c : Inode), children[j]? = some c ∧ c.key = oldKey ∧
        nodePut children oldKey newKey value pid =
          children.set j ⟨pid, newKey, value⟩) ∧
    ((∀ c ∈ children, c.key ≠ oldKey) →
      ∃ i, i ≤ children.length ∧
        nodePut children oldKey newKey value pid =
          children.take i ++ ⟨pid, newKey, value⟩ :: children.drop i ∧
        ∀ (k : Nat) (c : Inode), children[k]? = some c →
          (k < i ↔ bytesLt c.key oldKey)) := by
  have hmono := putSearchPred_mono children oldKey hs
  set pred := putSearchPred children oldKey with hpredDef
  set idx := sortSearch children.length pred with hidxDef
  have hle : idx ≤ children.length :=
    sortSearchLoop_le pred 0 children.length (Nat.zero_le _)
  have hfb : ∀ k, k < idx → pred k = false :=
    sortSearchLoop_false_below pred children.length hmono 0 children.length
      (le_refl _) (fun k hk => absurd hk (Nat.not_lt_zero k))
  have hta : idx < children.length → pred idx = true := fun h =>
    sortSearchLoop_true_at pred children.length hmono 0 children.length
      (fun _k hk1 hk2 => absurd hk2 (by omega)) h
  constructor
  · rintro ⟨j, c, hj, hkey⟩
    obtain ⟨hjlen, hjget⟩ := List.getElem?_eq_some.mp hj
    have hpj : pred j = true := by
      rw [hpredDef, putSearchPred_true_iff _ _ hjlen, hjget, hkey]
      exact bytesLt_irrefl oldKey
    have hfbelowj : ∀ k, k < j → pred k = false := by
      intro k hklt
      have hklen : k < children.length := by omega
      rw [hpredDef, putSearchPred_false_iff _ _ hklen]
      have hlt := keys_sorted_get hs hklen hjlen hklt
      rw [hjget] at hlt
      rwa [hkey] at hlt
    have hidxlt : idx < children.length := by
      rcases Nat.lt_or_ge idx children.length with h | h
      · exact h
      · exact absurd (hfb j (by omega)) (by simp [hpj])
    have hpidx := hta hidxlt
    have hidxj : idx = j := by
      rcases Nat.lt_trichotomy idx j with h | h | h
      · exact absurd (hfbelowj idx h) (by simp [hpidx])
      · exact h
      · exact absurd (hfb j h) (by simp [hpj])
    refine ⟨j, c, hj, hkey, ?_⟩
    have hcond : (decide (0 < children.length) &&
        decide (idx < children.length) &&
        ((children.getD idx ⟨0, [], []⟩).key == oldKey)) = true := by
      rw [List.getD_eq_getElem _ _ hidxlt]
      rw [decide_eq_true (by omega : 0 < children.length),
        decide_eq_true hidxlt]
      have h1 : children[idx]? = some c := by
        rw [show idx = j from hidxj]
        exact hj
      obtain ⟨hlen1, hget1⟩ := List.getElem?_eq_some.mp h1
      have hkeyidx : children[idx].key = oldKey := by rw [hget1, hkey]
      simp [hkeyidx]
    simp only [nodePut, ← hpredDef, ← hidxDef]
    rw [hcond]
    simp only [if_true, if_pos]
    rw [hidxj]
  · intro hnone
    refine ⟨idx, hle, ?_, ?_⟩
    · have hexf : (decide (0 < children.length) &&
          decide (idx < children.length) &&
          ((children.getD idx ⟨0, [], []⟩).key == oldKey)) = false := by
        rcases Nat.lt_or_ge idx children.length with hlt | hge
        · rw [List.getD_eq_getElem _ _ hlt]
          have hne : children[idx].key ≠ oldKey :=
            hnone _ (List.getElem_mem hlt)
          simp [hne]
        · simp [Nat.not_lt.mpr hge]
      simp only [nodePut, ← hpredDef, ← hidxDef]
      rw [hexf]
      simp
    · intro k c hkc
      obtain ⟨hklen, hkget⟩ := List.getElem?_eq_some.mp hkc
      constructor
      · intro hklt
        have hf := hfb k hklt
        rw [hpredDef, putSearchPred_false_iff _ _ hklen] at hf
        rwa [hkget] at hf
      · intro hblt
        by_contra hge
        push_neg at hge
        have hidxlt : idx < children.length := by omega
        have hpidx := hta hidxlt
        rw [hpredDef, putSearchPred_true_iff _ _ hidxlt,
          not_bytesLt_iff] at hpidx
        rcases hpidx with he | hgt
        · exact hnone _ (List.getElem_mem hidxlt) he
        · rcases Nat.eq_or_lt_of_le hge with he2 | hlt2
          · subst he2
            rw [hkget] at hgt
            exact bytesLt_asymm hblt hgt
          · have hlt3 := keys_sorted_get hs hidxlt hklen hlt2
            rw [hkget] at hlt3
            exact bytesLt_asymm hblt (bytesLt_trans hgt hlt3)

unseal sortSearchLoop in
/-- Concrete evaluation of the `TestNodePut` scenario. -/
theorem nodePut_scenario_eval :
    nodePut (nodePut (nodePut (nodePut [] [98, 97, 122] [98, 97, 122] [50] 0)
        [102, 111, 111] [102, 111, 111] [48] 0)
        [98, 97, 114] [98, 97, 114] [49] 0)
        [102, 111, 111] [102, 111, 111] [51] 0 =
      [⟨0, [98, 97, 114], [49]⟩, ⟨0, [98, 97, 122], [50]⟩,
        ⟨0, [102, 111, 111], [51]⟩] := by
  decide

/-- C6 (confirmed): for every node whose children are sorted ascending
by key with no duplicates, `node.put(oldKey, newKey, value, pageID)`
overwrites the existing child in place when a child with key `oldKey`
is present, and otherwise inserts a new child at the sorted position;
in particular, into an empty leaf node, putting baz→"2", foo→"0",
bar→"1", then foo→"3" yields exactly three children in order bar→"1",
baz→"2", foo→"3" (byte strings written out: bar = [98,97,114],
baz = [98,97,122], foo = [102,111,111], "1" = [49] and so on). -/
theorem nodePut_sorted_and_scenario :
    (∀ (children : List Inode) (oldKey newKey value : List Nat) (pid : Nat),
      (children.map Inode.key).Pairwise bytesLt →
      ((∃ (j : Nat) (c : Inode), children[j]? = some c ∧ c.key = oldKey) →
        ∃ (j : Nat) (c : Inode), children[j]? = some c ∧ c.key = oldKey ∧
          nodePut children oldKey newKey value pid =
            children.set j ⟨pid, newKey, value⟩) ∧
      ((∀ c ∈ children, c.key ≠ oldKey) →
        ∃ i, i ≤ children.length ∧
          nodePut children oldKey newKey value pid =
            children.take i ++ ⟨pid, newKey, value⟩ :: children.drop i ∧
          ∀ (k : Nat) (c : Inode), children[k]? = some c →
            (k < i ↔ bytesLt c.key oldKey))) ∧
    nodePut (nodePut (nodePut (nodePut [] [98, 97, 122] [98, 97, 122] [50] 0)
        [102, 111, 111] [102, 111, 111] [48] 0)
        [98, 97, 114] [98, 97, 114] [49] 0)
        [102, 111, 111] [102, 111, 111] [51] 0 =
      [⟨0, [98, 97, 114], [49]⟩, ⟨0, [98, 97, 122], [50]⟩,
        ⟨0, [102, 111, 111], [51]⟩] := by
  constructor
  · intro children oldKey newKey value pid hs
    exact nodePut_spec children oldKey newKey value pid hs
  · exact nodePut_scenario_eval

/-- C6, witness: the spec applied at the concrete sorted children
`[{key [1]}, {key [3]}]`, overwriting the existing key `[3]`. -/
theorem nodePut_sorted_and_scenario_witness :
    (([⟨0, [1], [7]⟩, ⟨0, [3], [8]⟩] : List Inode).map Inode.key).Pairwise
      bytesLt ∧
    (∃ (j : Nat) (c : Inode),
      ([⟨0, [1], [7]⟩, ⟨0, [3], [8]⟩] : List Inode)[j]? = some c ∧
      c.key = [3] ∧
      nodePut [⟨0, [1], [7]⟩, ⟨0, [3], [8]⟩] [3] [3] [9] 0 =
        ([⟨0, [1], [7]⟩, ⟨0, [3], [8]⟩] : List Inode).set j ⟨0, [3], [9]⟩) := by
  refine ⟨by decide, ?_⟩
  exact (nodePut_sorted_and_scenario.1 [⟨0, [1], [7]⟩, ⟨0, [3], [8]⟩]
    [3] [3] [9] 0 (by decide)).1 ⟨1, ⟨0, [3], [8]⟩, by decide, rfl⟩

/-- Invariant-carrying specification of the `split` loop, by induction
over the remaining inodes.  `i + rest.length = total` ties the loop
index to the position, and the byte accumulator always equals the
header size plus the cost of the children gathered so far. -/
theorem splitLoop_spec (n : Node) (threshold total : Nat) :
    ∀ (rest : List Inode) (i : Nat) (current : Node),
      i + rest.length = total →
      ∀ res, res = splitLoop n threshold total i rest current
          (pageHeaderSize + (current.children.map (inodeElemSize n)).sum) →
      ((res.map Node.children).flatten = current.children ++ rest) ∧
      (∃ ext, res.head? = some
        { current with children := current.children ++ ext }) ∧
      (∀ m ∈ res.tail, ∃ cs, cs ≠ [] ∧
        m = { mkFreshSibling n with children := cs }) ∧
      (∀ g ∈ res, g.children = [] → (current.children = [] ∧ rest = [])) ∧
      (∀ (j : Nat) (g1 g2 : Node) (x : Inode), res[j]? = some g1 →
        res[j + 1]? = some g2 → g2.children.head? = some x →
        minKeysPerPage ≤ g1.children.length ∧
        minKeysPerPage + 1 ≤
          ((res.drop (j + 1)).map Node.children).flatten.length ∧
        threshold < pageHeaderSize +
          (g1.children.map (inodeElemSize n)).sum + inodeElemSize n x) := by
  intro rest
  induction rest with
  | nil =>
    intro i current _hi res hres
    rw [splitLoop] at hres
    subst hres
    refine ⟨by simp, ⟨[], by simp⟩, by simp, ?_, ?_⟩
    · intro g hg hge
      simp at hg
      subst hg
      exact ⟨hge, rfl⟩
    · intro j g1 g2 x _h1 h2 _hx
      rw [List.getElem?_eq_some] at h2
      obtain ⟨hlt, -⟩ := h2
      simp at hlt
  | cons x rest ih =>
    intro i current hi res hres
    rw [splitLoop] at hres
    by_cases hc : minKeysPerPage ≤ current.children.length ∧
        i < total - minKeysPerPage ∧
        threshold <
          pageHeaderSize + (current.children.map (inodeElemSize n)).sum +
            inodeElemSize n x
    · rw [if_pos hc] at hres
      obtain ⟨hc1, hc2, hc3⟩ := hc
      have hrest2 : 2 ≤ rest.length := by
        have hm : minKeysPerPage = 2 := rfl
        rw [hm] at hc2
        simp only [List.length_cons] at hi
        omega
      have harg : pageHeaderSize + inodeElemSize n x =
          pageHeaderSize +
            ((({ mkFreshSibling n with children := [x] } : Node).children.map
              (inodeElemSize n)).sum) := by
        simp
      rw [harg] at hres
      obtain ⟨ih1, ⟨ext, ihHead⟩, ih3, ih4, ih5⟩ :=
        ih (i + 1) { mkFreshSibling n with children := [x] }
          (by simp only [List.length_cons] at hi; omega) _ rfl
      set res2 := splitLoop n threshold total (i + 1) rest
        { mkFreshSibling n with children := [x] }
        (pageHeaderSize +
          ((({ mkFreshSibling n with children := [x] } : Node).children.map
            (inodeElemSize n)).sum)) with hres2
      subst hres
      refine ⟨?_, ⟨[], by simp⟩, ?_, ?_, ?_⟩
      · simp only [List.map_cons, List.flatten_cons, ih1]
        simp
      · intro m hm
        simp only [List.tail_cons] at hm
        cases hr2 : res2 with
        | nil =>
          rw [hr2] at hm
          simp at hm
        | cons h2 t2 =>
          rw [hr2] at hm ihHead
          simp only [List.head?_cons, Option.some_inj] at ihHead
          rcases List.mem_cons.mp hm with he | ht
          · subst he
            exact ⟨[x] ++ ext, by simp, by rw [ihHead]⟩
          · exact ih3 m (by rw [hr2]; simpa using ht)
      · intro g hg hge
        rcases List.mem_cons.mp hg with he | ht
        · exfalso
          rw [he] at hge
          rw [hge] at hc1
          simp [minKeysPerPage] at hc1
        · exfalso
          have := ih4 g ht hge
          simp at this
      · intro j g1 g2 x2 h1 h2 hx2
        cases j with
        | zero =>
          simp only [List.getElem?_cons_zero, Option.some_inj] at h1
          subst h1
          have hg2 : res2[0]? = some g2 := by simpa using h2
          cases hr2 : res2 with
          | nil =>
            rw [hr2] at hg2
            simp at hg2
          | cons hh tt =>
            rw [hr2] at hg2 ihHead
            simp only [List.getElem?_cons_zero, Option.some_inj] at hg2
            simp only [List.head?_cons, Option.some_inj] at ihHead
            subst hg2
            rw [ihHead] at hx2
            simp only [List.cons_append, List.head?_cons,
              Option.some_inj] at hx2
            subst hx2
            refine ⟨hc1, ?_, hc3⟩
            have hlen : (((current :: hh :: tt).drop (0 + 1)).map
                Node.children).flatten.length = 1 + rest.length := by
              simp only [List.drop_succ_cons, List.drop_zero]
              rw [← hr2, ih1]
              simp
              omega
            rw [hlen]
            have hm : minKeysPerPage = 2 := rfl
            omega
        | succ j' =>
          have h1' : res2[j']? = some g1 := by simpa using h1
          have h2' : res2[j' + 1]? = some g2 := by simpa using h2
          obtain ⟨b1, b2, b3⟩ := ih5 j' g1 g2 x2 h1' h2' hx2
          refine ⟨b1, ?_, b3⟩
          simpa using b2
    · rw [if_neg hc] at hres
      have harg : pageHeaderSize +
          (current.children.map (inodeElemSize n)).sum + inodeElemSize n x =
          pageHeaderSize +
            ((({ current with children := current.children ++ [x] } :
              Node).children.map (inodeElemSize n)).sum) := by
        simp
        omega
      rw [harg] at hres
      obtain ⟨ih1, ⟨ext, ihHead⟩, ih3, ih4, ih5⟩ :=
        ih (i + 1) { current with children := current.children ++ [x] }
          (by simp only [List.length_cons] at hi; omega) _ hres
      refine ⟨?_, ⟨[x] ++ ext, ?_⟩, ih3, ?_, ih5⟩
      · rw [ih1]
        simp
      · rw [ihHead]
        simp
      · intro g hg hge
        exfalso
        have := ih4 g hg hge
        simp at this

/-- C7 (confirmed): `split(P)` returns exactly `[n]` when the node has
at most `2*minKeysPerPage` children or its serialized size is below the
page size.  Otherwise it returns nodes whose children concatenate, in
order, to the original children; the first returned node is `n` itself
(all fields but `children` unchanged — mutated in place); every later
node is fresh (same leaf-ness and transaction, no parent, zero pageID,
nonempty); and a new sibling is started only when the node being
filled already holds at least `minKeysPerPage` children, at least
`minKeysPerPage` children remain after the one that starts the new
sibling, and adding that child would push the accumulated byte size
past `P/2`. -/
theorem split_guard_and_regroup (P : Nat) (n : Node) :
    (n.children.length ≤ minKeysPerPage * 2 ∨ nodeSize n < P →
      split P n = [n]) ∧
    (¬ (n.children.length ≤ minKeysPerPage * 2 ∨ nodeSize n < P) →
      ((split P n).map Node.children).flatten = n.children ∧
      (∃ cs, (split P n).head? = some { n with children := cs }) ∧
      (∀ m ∈ (split P n).tail, ∃ cs, cs ≠ [] ∧
        m = { mkFreshSibling n with children := cs }) ∧
      (∀ g ∈ split P n, g.children ≠ []) ∧
      (∀ (j : Nat) (g1 g2 : Node) (x : Inode), (split P n)[j]? = some g1 →
        (split P n)[j + 1]? = some g2 → g2.children.head? = some x →
        minKeysPerPage ≤ g1.children.length ∧
        minKeysPerPage + 1 ≤
          (((split P n).drop (j + 1)).map Node.children).flatten.length ∧
        P / 2 < pageHeaderSize + (g1.children.map (inodeElemSize n)).sum +
          inodeElemSize n x)) := by
  constructor
  · intro h
    unfold split
    rw [if_pos h]
  · intro h
    have hsplit : split P n = splitLoop n (P / 2) n.children.length 0
        n.children { n with children := [] } pageHeaderSize := by
      unfold split
      rw [if_neg h]
    obtain ⟨p1, ⟨ext, p2⟩, p3, p4, p5⟩ :=
      splitLoop_spec n (P / 2) n.children.length n.children 0
        { n with children := [] } (by simp) (split P n)
        (by rw [hsplit]; simp)
    refine ⟨by simpa using p1, ⟨ext, by simpa using p2⟩, p3, ?_, p5⟩
    intro g hg hge
    obtain ⟨-, hrest⟩ := p4 g hg hge
    apply h
    left
    rw [hrest]
    simp [minKeysPerPage]

/-- C7, witness: the guard case on a three-child node, and the regroup
case on a five-child node of size 111 split with page size 40. -/
theorem split_guard_and_regroup_witness :
    ((⟨0, true, false, [], 0, 7, some 2,
        [⟨0, [1], [2]⟩, ⟨0, [1], [2]⟩, ⟨0, [1], [2]⟩]⟩ : Node).children.length ≤
      minKeysPerPage * 2 ∧
    split 100 ⟨0, true, false, [], 0, 7, some 2,
        [⟨0, [1], [2]⟩, ⟨0, [1], [2]⟩, ⟨0, [1], [2]⟩]⟩ =
      [⟨0, true, false, [], 0, 7, some 2,
        [⟨0, [1], [2]⟩, ⟨0, [1], [2]⟩, ⟨0, [1], [2]⟩]⟩]) ∧
    (¬ ((⟨0, true, false, [5], 1, 9, some 3,
        [⟨0, [1], [2, 2]⟩, ⟨0, [2], [3, 3]⟩, ⟨0, [3], [4, 4]⟩,
          ⟨0, [4], [5, 5]⟩, ⟨0, [5], [6, 6]⟩]⟩ : Node).children.length ≤
        minKeysPerPage * 2 ∨
      nodeSize ⟨0, true, false, [5], 1, 9, some 3,
        [⟨0, [1], [2, 2]⟩, ⟨0, [2], [3, 3]⟩, ⟨0, [3], [4, 4]⟩,
          ⟨0, [4], [5, 5]⟩, ⟨0, [5], [6, 6]⟩]⟩ < 40) ∧
    ((split 40 ⟨0, true, false, [5], 1, 9, some 3,
        [⟨0, [1], [2, 2]⟩, ⟨0, [2], [3, 3]⟩, ⟨0, [3], [4, 4]⟩,
          ⟨0, [4], [5, 5]⟩, ⟨0, [5], [6, 6]⟩]⟩).map Node.children).flatten =
      [⟨0, [1], [2, 2]⟩, ⟨0, [2], [3, 3]⟩, ⟨0, [3], [4, 4]⟩,
        ⟨0, [4], [5, 5]⟩, ⟨0, [5], [6, 6]⟩]) := by
  refine ⟨⟨by decide, ?_⟩, by decide, ?_⟩
  · exact (split_guard_and_regroup 100 _).1 (Or.inl (by decide))
  · exact (split_guard_and_regroup 40 _).2 (by decide) |>.1

theorem ordering_beq_iff (a b : Ordering) : (a == b) = true ↔ a = b := by
  cases a <;> cases b <;> decide

/-- The index component of the exact-tracking search is the plain
binary search. -/
theorem searchExactLoop_fst (cmp : Nat → Ordering) :
    ∀ i j ex, (searchExactLoop cmp i j ex).1 =
      sortSearchLoop (fun m => cmp m != Ordering.lt) i j := by
  intro i j ex
  induction i, j, ex using searchExactLoop.induct cmp with
  | case1 i j ex hij m ex2 hm ih =>
    rw [searchExactLoop, sortSearchLoop]
    simp only [hij, dif_pos]
    rw [if_pos hm, if_pos hm]
    exact ih
  | case2 i j ex hij m ex2 hm ih =>
    rw [searchExactLoop, sortSearchLoop]
    simp only [hij, dif_pos]
    rw [if_neg hm, if_neg hm]
    exact ih
  | case3 i j ex hij =>
    rw [searchExactLoop, sortSearchLoop, dif_neg hij, dif_neg hij]

/-- If the search comes back with `exact` set, some probed index inside
the original interval compared equal, and the returned index does not
exceed it. -/
theorem searchExactLoop_exact (cmp : Nat → Ordering) :
    ∀ i j ex, (searchExactLoop cmp i j ex).2 = true →
      ex = true ∨ ∃ m, i ≤ m ∧ m < j ∧ cmp m = Ordering.eq ∧
        (searchExactLoop cmp i j ex).1 ≤ m := by
  intro i j ex
  induction i, j, ex using searchExactLoop.induct cmp with
  | case1 i j ex hij m ex2 hm ih =>
    intro h2
    rw [searchExactLoop] at h2 ⊢
    simp only [hij, dif_pos] at h2 ⊢
    rw [if_pos hm] at h2 ⊢
    rcases ih h2 with hex2 | ⟨m2, hm2a, hm2b, hm2c, hm2d⟩
    · have : ex = true ∨ cmp m = Ordering.eq := by
        rcases Bool.or_eq_true_iff.mp hex2 with h | h
        · exact Or.inl h
        · exact Or.inr ((ordering_beq_iff _ _).mp h)
      rcases this with h | h
      · exact Or.inl h
      · refine Or.inr ⟨m, ?_, ?_, h, ?_⟩
        · omega
        · omega
        · rw [searchExactLoop_fst]
          exact sortSearchLoop_le _ i m (by omega)
    · exact Or.inr ⟨m2, hm2a, by omega, hm2c, hm2d⟩
  | case2 i j ex hij m ex2 hm ih =>
    intro h2
    rw [searchExactLoop] at h2 ⊢
    simp only [hij, dif_pos] at h2 ⊢
    rw [if_neg hm] at h2 ⊢
    have hex2eq : ex2 = ex := by
      have hne : ¬ cmp m = Ordering.eq := by
        intro he
        rw [he] at hm
        exact hm (by decide)
      have hb : (cmp m == Ordering.eq) = false := by
        rw [Bool.eq_false_iff]
        intro hbt
        exact hne ((ordering_beq_iff _ _).mp hbt)
      simp only [ex2, hb, Bool.or_false]
    rcases ih h2 with hx | ⟨m2, hm2a, hm2b, hm2c, hm2d⟩
    · rw [hex2eq] at hx
      exact Or.inl hx
    · exact Or.inr ⟨m2, by omega, hm2b, hm2c, hm2d⟩
  | case3 i j ex hij =>
    intro h2
    rw [searchExactLoop] at h2
    rw [dif_neg hij] at h2
    exact Or.inl h2

/-- Membership version of `wfChildren`. -/
theorem wfChildren_mem {es : List (List Nat × BTree)}
    (h : wfChildren es = true) {p : List Nat × BTree} (hp : p ∈ es) :
    wellFormed p.2 = true := by
  induction es with
  | nil => cases hp
  | cons q rest ih =>
    rw [wfChildren] at h
    simp only [Bool.and_eq_true] at h
    rcases List.mem_cons.mp hp with he | ht
    · subst he
      exact h.1.1
    · exact ih h.2 ht

/-- On a nonempty branch the chosen child index is in range. -/
theorem cursorSearchBranchIndex_lt (es : List (List Nat × BTree))
    (key : List Nat) (hne : es ≠ []) :
    cursorSearchBranchIndex es key < es.length := by
  have hlen : 0 < es.length := List.length_pos.mpr hne
  cases hr : searchExactLoop (branchSearchCmp es key) 0 es.length false with
  | mk r1 r2 =>
    have hle : r1 ≤ es.length := by
      have h1 := searchExactLoop_fst (branchSearchCmp es key) 0 es.length false
      rw [hr] at h1
      simp only [Prod.fst] at h1
      rw [h1]
      exact sortSearchLoop_le _ 0 es.length (Nat.zero_le _)
    unfold cursorSearchBranchIndex
    rw [hr]
    show (if (!r2 && decide (0 < r1)) = true then r1 - 1 else r1) <
      es.length
    cases r2 with
    | true =>
      rcases searchExactLoop_exact (branchSearchCmp es key) 0 es.length false
          (by rw [hr]) with hx | ⟨m, _hma, hmb, _hmc, hmd⟩
      · cases hx
      · rw [hr] at hmd
        simp only [Prod.fst] at hmd
        simp only [Bool.not_true, Bool.false_and, Bool.false_eq_true,
          if_neg, not_false_iff]
        omega
    | false =>
      simp only [Bool.not_false, Bool.true_and]
      by_cases h1 : 0 < r1
      · rw [if_pos (by simp [h1])]
        omega
      · rw [if_neg (by simp [h1])]
        omega

/-- Under well-formedness the cursor descent always completes and lands
inside (or one past the end of) a leaf. -/
theorem searchTree_total (key : List Nat) (t : BTree)
    (hwf : wellFormed t = true) :
    ∃ es i, searchTree key t = some (es, i) ∧ i ≤ es.length := by
  induction t using searchTree.induct key with
  | case1 es =>
    refine ⟨es, sortSearch es.length (putSearchPred es key), ?_, ?_⟩
    · rw [searchTree]
    · exact sortSearchLoop_le _ 0 es.length (Nat.zero_le _)
  | case2 es index hnone =>
    exfalso
    rw [wellFormed] at hwf
    simp only [Bool.and_eq_true] at hwf
    have hne : es ≠ [] := by
      intro he
      rw [he] at hwf
      simp [List.isEmpty] at hwf
    have := cursorSearchBranchIndex_lt es key hne
    rw [List.getElem?_eq_getElem this] at hnone
    cases hnone
  | case3 es index p hsome ih =>
    rw [wellFormed] at hwf
    simp only [Bool.and_eq_true] at hwf
    have hmem : p ∈ es := by
      rw [List.getElem?_eq_some] at hsome
      obtain ⟨h1, h2⟩ := hsome
      exact h2 ▸ List.getElem_mem h1
    have hwfp := wfChildren_mem hwf.2 hmem
    obtain ⟨es2, i2, hs2, hle2⟩ := ih hwfp
    refine ⟨es2, i2, ?_, hle2⟩
    rw [searchTree]
    rw [hsome]
    exact hs2

/-- Unconditional characterization of `Cursor.Get`: a non-nil result
is exactly a hit of the landed-on leaf element. -/
theorem cursorGet_iff (key : List Nat) (t : BTree) (v : List Nat) :
    cursorGet key t = some v ↔
      ∃ es i, searchTree key t = some (es, i) ∧
        ∃ e : Inode, es[i]? = some e ∧ e.key = key ∧ e.value = v := by
  cases hs : searchTree key t with
  | none =>
    constructor
    · intro h
      unfold cursorGet at h
      rw [hs] at h
      cases h
    · rintro ⟨es, i, hsi, -⟩
      cases hsi
  | some r =>
    obtain ⟨es, i⟩ := r
    have hcg : cursorGet key t =
        (if i = es.length then none
         else match es[i]? with
           | none => none
           | some e => if e.key = key then some e.value else none) := by
      unfold cursorGet
      rw [hs]
    rw [hcg]
    constructor
    · intro h
      by_cases hieq : i = es.length
      · rw [if_pos hieq] at h
        cases h
      · rw [if_neg hieq] at h
        cases he : es[i]? with
        | none =>
          rw [he] at h
          cases h
        | some e =>
          rw [he] at h
          have h2 : (if e.key = key then some e.value else none) = some v :=
            h
          by_cases hk : e.key = key
          · rw [if_pos hk] at h2
            exact ⟨es, i, rfl, e, he, hk, Option.some_inj.mp h2⟩
          · rw [if_neg hk] at h2
            cases h2
    · rintro ⟨es2, i2, hs2, e, he, hk, hv⟩
      injection hs2 with hs3
      injection hs3 with hA hB
      subst hA
      subst hB
      obtain ⟨hlt, -⟩ := List.getElem?_eq_some.mp he
      rw [if_neg (by omega : ¬ i = es.length), he]
      show (if e.key = key then some e.value else none) = some v
      rw [if_pos hk, hv]

unseal sortSearchLoop searchExactLoop searchTree treePut in
/-- C5 (confirmed): for every well-formed B+tree (keys strictly
ascending within every page, each branch key the smallest key of its
child subtree) and every key K, the cursor descent completes, and
`Cursor.Get(K)` returns a non-nil value exactly when the leaf element
the descent lands on has key bytes equal to K — in which case it is
that element's stored value — and nil otherwise.  In particular, after
put("widgets","foo","bar") into a fresh bucket,
get("widgets","no_such_key") returns nil with no error, and
get("widgets","foo") returns "bar" ("widgets" shortened to the
one-byte name [119]; foo = [102,111,111], bar = [98,97,114]). -/
theorem cursorGet_wf_spec :
    (∀ (t : BTree) (key : List Nat), wellFormed t = true →
      (∃ es i, searchTree key t = some (es, i) ∧ i ≤ es.length) ∧
      (∀ v, cursorGet key t = some v ↔
        ∃ es i, searchTree key t = some (es, i) ∧
          ∃ e : Inode, es[i]? = some e ∧ e.key = key ∧ e.value = v)) ∧
    treePut [102, 111, 111] [98, 97, 114] (.leaf []) =
      some (.leaf [⟨0, [102, 111, 111], [98, 97, 114]⟩]) ∧
    txGet [([119], .leaf [⟨0, [102, 111, 111], [98, 97, 114]⟩])] [119]
      [110, 111, 95, 115, 117, 99, 104, 95, 107, 101, 121] =
      (none, none) ∧
    txGet [([119], .leaf [⟨0, [102, 111, 111], [98, 97, 114]⟩])] [119]
      [102, 111, 111] = (some [98, 97, 114], none) := by
  refine ⟨?_, ?_, ?_, ?_⟩
  · intro t key hwf
    exact ⟨searchTree_total key t hwf, fun v => cursorGet_iff key t v⟩
  · rfl
  · decide
  · decide

/-- C5, witness: the spec applied at the concrete well-formed
single-leaf tree holding foo→bar. -/
theorem cursorGet_wf_spec_witness :
    wellFormed (.leaf [⟨0, [102, 111, 111], [98, 97, 114]⟩]) = true ∧
    (∃ es i, searchTree [102, 111, 111]
        (.leaf [⟨0, [102, 111, 111], [98, 97, 114]⟩]) = some (es, i) ∧
      i ≤ es.length) := by
  refine ⟨by decide, ?_⟩
  exact (cursorGet_wf_spec.1 (.leaf [⟨0, [102, 111, 111], [98, 97, 114]⟩])
    [102, 111, 111] (by decide)).1

/-- Under well-formedness the `Put` mutation path always lands on a
leaf and succeeds. -/
theorem treePut_total (key value : List Nat) (t : BTree)
    (hwf : wellFormed t = true) :
    ∃ t2, treePut key value t = some t2 := by
  induction t using treePut.induct key value with
  | case1 es =>
    exact ⟨.leaf (nodePut es key key value 0), by rw [treePut]⟩
  | case2 es index hnone =>
    exfalso
    rw [wellFormed] at hwf
    simp only [Bool.and_eq_true] at hwf
    have hne : es ≠ [] := by
      intro he
      rw [he] at hwf
      simp [List.isEmpty] at hwf
    have := cursorSearchBranchIndex_lt es key hne
    rw [List.getElem?_eq_getElem this] at hnone
    cases hnone
  | case3 es index p hsome ih =>
    rw [wellFormed] at hwf
    simp only [Bool.and_eq_true] at hwf
    have hmem : p ∈ es := by
      rw [List.getElem?_eq_some] at hsome
      obtain ⟨h1, h2⟩ := hsome
      exact h2 ▸ List.getElem_mem h1
    obtain ⟨t2, ht2⟩ := ih (wfChildren_mem hwf.2 hmem)
    have hfinal : (treePut key value p.2).map
        (fun c2 => BTree.branch
          (es.set (cursorSearchBranchIndex es key) (p.1, c2))) =
        some (BTree.branch
          (es.set (cursorSearchBranchIndex es key) (p.1, t2))) := by
      rw [ht2]
      rfl
    refine ⟨BTree.branch (es.set (cursorSearchBranchIndex es key)
      (p.1, t2)), ?_⟩
    rw [treePut, hsome]
    exact hfinal

/-- Reduction of `rwPut` once the bucket lookup has succeeded. -/
theorem rwPut_found (catalog : List (List Nat × BTree))
    (name key value : List Nat) (t : BTree)
    (hb : alookup catalog name = some t) :
    rwPut catalog name key value =
      (if key.length = 0 then some (catalog, some .keyRequired)
       else if MaxKeySize < key.length then
         some (catalog, some .keyTooLarge)
       else if MaxValueSize < value.length then
         some (catalog, some .valueTooLarge)
       else (treePut key value t).map
         (fun t2 => (aupdate catalog name t2, none))) := by
  unfold rwPut
  rw [hb]

/-- C8 (confirmed): for every existing bucket, `Put` returns
`KeyRequired` for an empty (or nil, which has length 0) key,
`KeyTooLarge` beyond 32768 bytes while a 32768-byte key succeeds, and
`ValueTooLarge` beyond 2^32−1 bytes; every validation error leaves the
transaction state untouched. -/
theorem rwPut_validation_spec (catalog : List (List Nat × BTree))
    (name key value : List Nat) (t : BTree)
    (hb : alookup catalog name = some t) :
    (key = [] →
      rwPut catalog name key value = some (catalog, some .keyRequired)) ∧
    (MaxKeySize < key.length →
      rwPut catalog name key value = some (catalog, some .keyTooLarge)) ∧
    (0 < key.length → key.length ≤ MaxKeySize →
      MaxValueSize < value.length →
      rwPut catalog name key value = some (catalog, some .valueTooLarge)) ∧
    (key.length = MaxKeySize → value.length ≤ MaxValueSize →
      wellFormed t = true →
      ∃ catalog2, rwPut catalog name key value = some (catalog2, none)) := by
  refine ⟨?_, ?_, ?_, ?_⟩
  · intro hk
    subst hk
    rw [rwPut_found catalog name [] value t hb]
    rfl
  · intro hk
    rw [rwPut_found catalog name key value t hb]
    rw [if_neg (by omega), if_pos hk]
  · intro hk1 hk2 hv
    rw [rwPut_found catalog name key value t hb]
    rw [if_neg (by omega), if_neg (by omega), if_pos hv]
  · intro hk hv hwf
    obtain ⟨t2, ht2⟩ := treePut_total key value t hwf
    refine ⟨aupdate catalog name t2, ?_⟩
    rw [rwPut_found catalog name key value t hb]
    have hm : MaxKeySize = 32768 := rfl
    rw [if_neg (by omega), if_neg (by omega), if_neg (by omega), ht2]
    rfl

/-- C8, witness: on the catalog holding the empty bucket `[119]`, the
empty key fails with `KeyRequired` leaving the state unchanged, a
32769-byte key fails with `KeyTooLarge`, an oversized value fails with
`ValueTooLarge`, and a 32768-byte key succeeds. -/
theorem rwPut_validation_spec_witness :
    (alookup [([119], BTree.leaf [])] [119] = some (BTree.leaf []) ∧
      (List.replicate 32768 7).length = MaxKeySize ∧
      wellFormed (BTree.leaf []) = true) ∧
    rwPut [([119], BTree.leaf [])] [119] [] [1] =
      some ([([119], BTree.leaf [])], some .keyRequired) ∧
    rwPut [([119], BTree.leaf [])] [119] (List.replicate 32769 7) [1] =
      some ([([119], BTree.leaf [])], some .keyTooLarge) ∧
    (∃ catalog2, rwPut [([119], BTree.leaf [])] [119]
        (List.replicate 32768 7) [1] = some (catalog2, none)) := by
  have hlen : (List.replicate 32768 7).length = MaxKeySize := by
    rw [List.length_replicate]
    rfl
  have hb : alookup [([119], BTree.leaf [])] [119] =
      some (BTree.leaf []) := rfl
  refine ⟨⟨hb, hlen, by decide⟩, ?_, ?_, ?_⟩
  · exact (rwPut_validation_spec [([119], BTree.leaf [])] [119] [] [1]
      (BTree.leaf []) hb).1 rfl
  · refine (rwPut_validation_spec [([119], BTree.leaf [])] [119]
      (List.replicate 32769 7) [1] (BTree.leaf []) hb).2.1 ?_
    rw [List.length_replicate]
    decide
  · obtain ⟨c2, hc2⟩ := (rwPut_validation_spec [([119], BTree.leaf [])]
      [119] (List.replicate 32768 7) [1] (BTree.leaf []) hb).2.2.2
      hlen (by rw [show ([1] : List Nat).length = 1 from rfl]; decide)
      (by decide)
    exact ⟨c2, hc2⟩

theorem createBucket_found (st : WTx) (name : List Nat) (b : GoBucket)
    (hb : alookup st.buckets name = some b) :
    createBucket st name = some (st, some .bucketExists) := by
  unfold createBucket
  rw [hb]

theorem createBucket_notfound (st : WTx) (name : List Nat)
    (hb : alookup st.buckets name = none) :
    createBucket st name =
      (if name.length = 0 then some (st, some .bucketNameRequired)
       else if MaxBucketNameSize < name.length then
         some (st, some .bucketNameTooLarge)
       else (dbAllocate 1 st).map (fun r =>
         ({ r.2 with buckets := bput r.2.buckets name ⟨r.1, 0⟩ },
           none))) := by
  unfold createBucket
  rw [hb]

/-- With a sane freelist (ids ≥ 2) the one-page allocation succeeds
and does not touch the catalog. -/
theorem dbAllocate_some (count : Nat) (st : WTx) (hc : 1 ≤ count)
    (hfl : ∀ x ∈ st.freelist, 2 ≤ x) :
    ∃ pid st2, dbAllocate count st = some (pid, st2) ∧
      st2.buckets = st.buckets := by
  obtain ⟨r, hr, -⟩ := allocate_spec count st.freelist hc hfl
  obtain ⟨id, fl2⟩ := r
  unfold dbAllocate
  rw [hr]
  by_cases h0 : id ≠ 0
  · refine ⟨id, { st with freelist := fl2 }, ?_, rfl⟩
    show (if id ≠ 0 then some (id, { st with freelist := fl2 })
        else some (st.highWater,
          { st with highWater := st.highWater + count })) =
      some (id, { st with freelist := fl2 })
    rw [if_pos h0]
  · refine ⟨st.highWater,
      { st with highWater := st.highWater + count }, ?_, rfl⟩
    show (if id ≠ 0 then some (id, { st with freelist := fl2 })
        else some (st.highWater,
          { st with highWater := st.highWater + count })) =
      some (st.highWater, { st with highWater := st.highWater + count })
    rw [if_neg h0]

theorem alookup_bput_self (l : List (List Nat × GoBucket))
    (k : List Nat) (b : GoBucket) : alookup (bput l k b) k = some b := by
  induction l with
  | nil => simp [bput, alookup]
  | cons p rest ih =>
    by_cases hk : p.1 = k
    · rw [bput]
      rw [if_pos hk]
      rw [alookup]
      rw [if_pos rfl]
    · rw [bput]
      rw [if_neg hk]
      rw [alookup]
      rw [if_neg hk]
      exact ih

/-- C9 (confirmed): `CreateBucket("")` fails with `BucketNameRequired`;
a 255-byte name succeeds (and lands in the catalog with the allocated
root page and sequence 0) while a 256-byte name fails with
`BucketNameTooLarge`; creating an existing bucket fails with
`BucketExists` leaving the whole state unchanged; and
`CreateBucketIfNotExists` is idempotent — a second call with the same
valid name returns no error and leaves the state exactly as it was. -/
theorem createBucket_spec (st : WTx) (hfl : ∀ x ∈ st.freelist, 2 ≤ x) :
    (alookup st.buckets [] = none →
      createBucket st [] = some (st, some .bucketNameRequired)) ∧
    (∀ name : List Nat, name.length = 255 →
      alookup st.buckets name = none →
      ∃ st2 pid, createBucket st name = some (st2, none) ∧
        alookup st2.buckets name = some ⟨pid, 0⟩) ∧
    (∀ name : List Nat, name.length = 256 →
      alookup st.buckets name = none →
      createBucket st name = some (st, some .bucketNameTooLarge)) ∧
    (∀ (name : List Nat) (b : GoBucket), alookup st.buckets name = some b →
      createBucket st name = some (st, some .bucketExists)) ∧
    (∀ name : List Nat, 0 < name.length → name.length ≤ 255 →
      ∀ st2, createBucketIfNotExists st name = some (st2, none) →
        createBucketIfNotExists st2 name = some (st2, none)) := by
  have hmb : MaxBucketNameSize = 255 := rfl
  refine ⟨?_, ?_, ?_, ?_, ?_⟩
  · intro hb
    rw [createBucket_notfound st [] hb]
    rfl
  · intro name h255 hb
    rw [createBucket_notfound st name hb,
      if_neg (by omega), if_neg (by omega)]
    obtain ⟨pid, stA, hda, hbk⟩ := dbAllocate_some 1 st (le_refl 1) hfl
    rw [hda]
    exact ⟨{ stA with buckets := bput stA.buckets name ⟨pid, 0⟩ }, pid,
      rfl, alookup_bput_self _ _ _⟩
  · intro name h256 hb
    rw [createBucket_notfound st name hb,
      if_neg (by omega), if_pos (by omega)]
  · intro name b hb
    exact createBucket_found st name b hb
  · intro name hlen0 hlen255 st2 h1
    cases hlk : alookup st.buckets name with
    | some b =>
      have hcb := createBucket_found st name b hlk
      unfold createBucketIfNotExists at h1
      rw [hcb] at h1
      have h1x : some ((st : WTx), (none : Option GoErr)) =
          some (st2, none) := h1
      have h3 := Option.some_inj.mp h1x
      have h4 : st = st2 := congrArg Prod.fst h3
      unfold createBucketIfNotExists
      rw [createBucket_found st2 name b (by rw [← h4]; exact hlk)]
      rfl
    | none =>
      have hcb := createBucket_notfound st name hlk
      rw [if_neg (by omega), if_neg (by omega)] at hcb
      unfold createBucketIfNotExists at h1
      rw [hcb] at h1
      cases hda : dbAllocate 1 st with
      | none =>
        rw [hda] at h1
        cases h1
      | some r =>
        obtain ⟨pid, stA⟩ := r
        rw [hda] at h1
        have h1x : some (({ stA with
            buckets := bput stA.buckets name ⟨pid, 0⟩ } : WTx),
            (none : Option GoErr)) = some (st2, none) := h1
        have h3 := Option.some_inj.mp h1x
        have h4 : ({ stA with
            buckets := bput stA.buckets name ⟨pid, 0⟩ } : WTx) = st2 :=
          congrArg Prod.fst h3
        have hlk2 : alookup st2.buckets name = some ⟨pid, 0⟩ := by
          rw [← h4]
          exact alookup_bput_self _ _ _
        unfold createBucketIfNotExists
        rw [createBucket_found st2 name _ hlk2]
        rfl

unseal allocateLoop in
/-- C9, witness: concrete calls on the state with empty catalog,
freelist `[3]` and high water 5: empty name, 255- and 256-byte names,
recreating an existing bucket, and both `CreateBucketIfNotExists`
calls. -/
theorem createBucket_spec_witness :
    (∀ x ∈ (WTx.mk [] [3] 5).freelist, 2 ≤ x) ∧
    createBucket (WTx.mk [] [3] 5) [] =
      some (WTx.mk [] [3] 5, some .bucketNameRequired) ∧
    (∃ st2 pid, createBucket (WTx.mk [] [3] 5) (List.replicate 255 88) =
      some (st2, none) ∧
      alookup st2.buckets (List.replicate 255 88) = some ⟨pid, 0⟩) ∧
    createBucket (WTx.mk [] [3] 5) (List.replicate 256 88) =
      some (WTx.mk [] [3] 5, some .bucketNameTooLarge) ∧
    createBucket (WTx.mk [([119], ⟨4, 0⟩)] [3] 5) [119] =
      some (WTx.mk [([119], ⟨4, 0⟩)] [3] 5, some .bucketExists) ∧
    createBucketIfNotExists (WTx.mk [([119], ⟨3, 0⟩)] [] 5) [119] =
      some (WTx.mk [([119], ⟨3, 0⟩)] [] 5, none) := by
  have hfl : ∀ x ∈ (WTx.mk [] [3] 5).freelist, 2 ≤ x := by decide
  refine ⟨hfl, ?_, ?_, ?_, ?_, ?_⟩
  · exact (createBucket_spec (WTx.mk [] [3] 5) hfl).1 rfl
  · exact (createBucket_spec (WTx.mk [] [3] 5) hfl).2.1
      (List.replicate 255 88) (by rw [List.length_replicate]) rfl
  · exact (createBucket_spec (WTx.mk [] [3] 5) hfl).2.2.1
      (List.replicate 256 88) (by rw [List.length_replicate]) rfl
  · exact (createBucket_spec (WTx.mk [([119], ⟨4, 0⟩)] [3] 5)
      (by decide)).2.2.2.1 [119] ⟨4, 0⟩ rfl
  · exact (createBucket_spec (WTx.mk [([119], ⟨3, 0⟩)] [] 5)
      (by decide)).2.2.2.2 [119] (by decide) (by decide)
      (WTx.mk [([119], ⟨3, 0⟩)] [] 5) rfl

theorem fromLE8_toLE8 (n : Nat) (h : n < 18446744073709551616) :
    fromLE8 (toLE8 n) = n := by
  show n % 256 + 256 * (n / 256 % 256) + 65536 * (n / 65536 % 256) +
      16777216 * (n / 16777216 % 256) +
      4294967296 * (n / 4294967296 % 256) +
      1099511627776 * (n / 1099511627776 % 256) +
      281474976710656 * (n / 281474976710656 % 256) +
      72057594037927936 * (n / 72057594037927936 % 256) = n
  omega

theorem readRec_roundtrip (b : GoBucket) (rest : List Nat)
    (h1 : b.rootPageID < 18446744073709551616)
    (h2 : b.sequence < 18446744073709551616) :
    readBucketRec (bucketRecBytes b ++ rest) = b := by
  have e1 : readBucketRec (bucketRecBytes b ++ rest) =
      ⟨fromLE8 (toLE8 b.rootPageID), fromLE8 (toLE8 b.sequence)⟩ := rfl
  rw [e1, fromLE8_toLE8 _ h1, fromLE8_toLE8 _ h2]

theorem bucketRecBytes_length (b : GoBucket) :
    (bucketRecBytes b).length = 16 := rfl

theorem recsFlat_length (es : List (List Nat × GoBucket)) :
    ((es.map (fun e => bucketRecBytes e.2)).flatten).length =
      16 * es.length := by
  induction es with
  | nil => simp
  | cons e es ih =>
    simp only [List.map_cons, List.flatten_cons, List.length_append, ih,
      bucketRecBytes_length, List.length_cons]
    ring

theorem readRecs_flatten (es : List (List Nat × GoBucket))
    (rest : List Nat)
    (hvals : ∀ p ∈ es, p.2.rootPageID < 18446744073709551616 ∧
      p.2.sequence < 18446744073709551616) :
    readRecs es.length
      ((es.map (fun e => bucketRecBytes e.2)).flatten ++ rest) =
      es.map Prod.snd := by
  induction es with
  | nil => rfl
  | cons e es ih =>
    simp only [List.length_cons, List.map_cons, List.flatten_cons,
      List.append_assoc]
    rw [readRecs]
    have hv := hvals e (List.mem_cons_self e es)
    rw [readRec_roundtrip e.2 _ hv.1 hv.2]
    have hdrop : ((bucketRecBytes e.2 ++
        ((es.map (fun e => bucketRecBytes e.2)).flatten ++ rest)).drop 16) =
        (es.map (fun e => bucketRecBytes e.2)).flatten ++ rest := by
      rw [← bucketRecBytes_length e.2]
      exact List.drop_left _ _
    rw [hdrop, ih (fun p hp => hvals p (List.mem_cons_of_mem e hp))]

theorem readNames_flatten (es : List (List Nat × GoBucket))
    (hname : ∀ p ∈ es, p.1.length ≤ 255) :
    readNames es.length
      ((es.map (fun e => e.1.length % 256 :: e.1)).flatten) =
      es.map Prod.fst := by
  induction es with
  | nil => rfl
  | cons e es ih =>
    simp only [List.length_cons, List.map_cons, List.flatten_cons,
      List.cons_append]
    rw [readNames]
    have hlt : e.1.length % 256 = e.1.length :=
      Nat.mod_eq_of_lt (by have := hname e (List.mem_cons_self e es); omega)
    simp only [List.headD_cons, List.tail_cons, hlt]
    rw [List.take_left, List.drop_left,
      ih (fun p hp => hname p (List.mem_cons_of_mem e hp))]

theorem zip_fst_snd {α β : Type} (es : List (α × β)) :
    (es.map Prod.fst).zip (es.map Prod.snd) = es := by
  induction es with
  | nil => rfl
  | cons e es ih => simp [List.zip, ih]

theorem alookup_eq_none_iff {α : Type} (l : List (List Nat × α))
    (k : List Nat) : alookup l k = none ↔ ∀ p ∈ l, p.1 ≠ k := by
  induction l with
  | nil => simp [alookup]
  | cons p rest ih =>
    by_cases hk : p.1 = k
    · rw [alookup, if_pos hk]
      simp only [List.mem_cons]
      constructor
      · intro h
        cases h
      · intro h
        exact absurd hk (h p (Or.inl rfl))
    · rw [alookup, if_neg hk]
      rw [ih]
      constructor
      · intro h q hq
        rcases List.mem_cons.mp hq with he | ht
        · subst he
          exact hk
        · exact h q ht
      · intro h q hq
        exact h q (List.mem_cons_of_mem p hq)

theorem alookup_eq_some_iff {α : Type} (l : List (List Nat × α))
    (hnd : (l.map Prod.fst).Nodup) (k : List Nat) (b : α) :
    alookup l k = some b ↔ (k, b) ∈ l := by
  induction l with
  | nil => simp [alookup]
  | cons p rest ih =>
    rw [List.map_cons, List.nodup_cons] at hnd
    by_cases hk : p.1 = k
    · rw [alookup, if_pos hk]
      simp only [Option.some_inj, List.mem_cons]
      constructor
      · intro h
        left
        rw [Prod.ext_iff]
        exact ⟨hk.symm, h.symm⟩
      · intro h
        rcases h with he | ht
        · rw [← he]
        · exfalso
          apply hnd.1
          rw [hk]
          exact List.mem_map.mpr ⟨(k, b), ht, rfl⟩
    · rw [alookup, if_neg hk]
      rw [ih hnd.2]
      simp only [List.mem_cons]
      constructor
      · intro h
        exact Or.inr h
      · intro h
        rcases h with he | ht
        · exfalso
          apply hk
          rw [← he]
        · exact ht

theorem alookup_perm {α : Type} (l l2 : List (List Nat × α))
    (hperm : l.Perm l2) (hnd : (l.map Prod.fst).Nodup) (k : List Nat) :
    alookup l k = alookup l2 k := by
  have hnd2 : (l2.map Prod.fst).Nodup :=
    ((hperm.map Prod.fst).nodup_iff).mp hnd
  cases h : alookup l k with
  | none =>
    rw [alookup_eq_none_iff] at h
    symm
    rw [alookup_eq_none_iff]
    intro p hp
    exact h p (hperm.mem_iff.mpr hp)
  | some b =>
    rw [alookup_eq_some_iff l hnd] at h
    symm
    rw [alookup_eq_some_iff l2 hnd2]
    exact hperm.mem_iff.mp h

/-- C10 (confirmed): for every bucket catalog with distinct names,
names nonempty and at most 255 bytes, `uint64` fields in range, fewer
than 2^16 buckets and a serialization that fits in one page, writing
with `buckets.write` and reading the page back with `buckets.read`
reconstructs exactly the original name → {rootPageID, sequence} map:
structurally it returns the name-sorted entry list, and every lookup
agrees with the original. -/
theorem bucketsWriteRead_roundtrip (m : List (List Nat × GoBucket))
    (hkeys : (m.map Prod.fst).Nodup)
    (hname : ∀ p ∈ m, 0 < p.1.length ∧ p.1.length ≤ 255)
    (hvals : ∀ p ∈ m, p.2.rootPageID < 18446744073709551616 ∧
      p.2.sequence < 18446744073709551616)
    (hcount : m.length < 65536)
    (_hfits : pageHeaderSize + (writeBuckets m).2.length ≤ 4096) :
    readBuckets (writeBuckets m).1 (writeBuckets m).2 =
      List.insertionSort (fun a b => bytesLe a.1 b.1) m ∧
    ∀ name, alookup (readBuckets (writeBuckets m).1 (writeBuckets m).2)
      name = alookup m name := by
  have hperm : (List.insertionSort (fun a b => bytesLe a.1 b.1) m).Perm m :=
    List.perm_insertionSort _ m
  set entries := List.insertionSort (fun a b => bytesLe a.1 b.1) m
    with hentries
  have hlen : entries.length = m.length := hperm.length_eq
  have hcountEq : (writeBuckets m).1 = entries.length := by
    show m.length % 65536 = entries.length
    rw [hlen, Nat.mod_eq_of_lt hcount]
  have hbody : (writeBuckets m).2 =
      (entries.map (fun e => bucketRecBytes e.2)).flatten ++
        (entries.map (fun e => e.1.length % 256 :: e.1)).flatten := rfl
  have hstruct : readBuckets (writeBuckets m).1 (writeBuckets m).2 =
      entries := by
    rw [hcountEq, hbody]
    unfold readBuckets
    have hdropNames :
        (((entries.map (fun e => bucketRecBytes e.2)).flatten ++
          (entries.map (fun e => e.1.length % 256 :: e.1)).flatten).drop
            (16 * entries.length)) =
        (entries.map (fun e => e.1.length % 256 :: e.1)).flatten := by
      rw [← recsFlat_length entries]
      exact List.drop_left _ _
    rw [hdropNames]
    rw [readNames_flatten entries
      (fun p hp => (hname p (hperm.mem_iff.mp hp)).2)]
    rw [readRecs_flatten entries _
      (fun p hp => hvals p (hperm.mem_iff.mp hp))]
    exact zip_fst_snd entries
  refine ⟨hstruct, ?_⟩
  intro name
  rw [hstruct]
  exact alookup_perm entries m hperm
    (((hperm.map Prod.fst).nodup_iff).mpr hkeys) name

/-- C10, witness: the round trip applied at the concrete two-bucket
catalog foo→{2,1}, bar→{3,9}, whose lookups survive the round trip. -/
theorem bucketsWriteRead_roundtrip_witness :
    (([([102, 111, 111], ⟨2, 1⟩), ([98, 97, 114], ⟨3, 9⟩)] :
        List (List Nat × GoBucket)).map Prod.fst).Nodup ∧
    (∀ name, alookup (readBuckets
        (writeBuckets [([102, 111, 111], ⟨2, 1⟩), ([98, 97, 114], ⟨3, 9⟩)]).1
        (writeBuckets [([102, 111, 111], ⟨2, 1⟩),
          ([98, 97, 114], ⟨3, 9⟩)]).2) name =
      alookup [([102, 111, 111], ⟨2, 1⟩), ([98, 97, 114], ⟨3, 9⟩)] name) := by
  refine ⟨by decide, ?_⟩
  exact (bucketsWriteRead_roundtrip
    [([102, 111, 111], ⟨2, 1⟩), ([98, 97, 114], ⟨3, 9⟩)]
    (by decide) (by decide) (by decide) (by decide) (by decide)).2

end ToyBolt
